import Mathlib

/-!
Shallow embedding of the dependency-graph core of the bundler:

* `src/packages/core/core/src/Graph.js` — a generic mutable directed graph
  (`Graph` class) with incremental diffing, orphan-pruning removal, subgraph
  replacement and DFS/BFS traversal; and
* `src/packages/core/core/src/assetUtils.js` — the identity/invalidation model
  (`createAsset`, `getInvalidationId`, `getInvalidationHash`).

Modelling conventions, fixed once here:

* A JS `Map` (`this.nodes`) is modelled as an association list
  `List (NodeId × GNode α)` in insertion order.  `Map.set` overwrites in place
  (keeping the entry's position) or appends; `Map.delete` removes the entry.
  A real JS `Map` can never hold two entries with the same key, so theorems
  that need it take a `Nodup` hypothesis on the key list.
* A JS `Set` of edge objects (`this.edges`) is modelled as a `List Edge` in
  insertion order.  JS `Set.add` deduplicates by *object reference*, not by
  `(from, to)` value; every call site of `addEdge` in the source inserts a
  fresh object (or an object coming from a different set), so `Set.add` is
  modelled as plain append, and the edge list may contain duplicate
  `(from, to)` pairs — exactly as the JS set may hold two distinct objects
  with equal fields.  `Set.delete edge` removes the given reference, modelled
  as removal of the first structurally-equal occurrence (`List.erase`).
* JS iteration over a live `Map`/`Set` while the cascade deletes entries skips
  entries that were deleted before being visited; the model iterates a
  snapshot and re-checks membership in the current graph at each step.
* The mutually recursive `removeNode`/`removeEdge` cascade is defined with an
  explicit fuel parameter; the public wrappers supply `nodes.length +
  edges.length + 1` fuel, which is an upper bound on the recursion depth
  because every nested call first deletes a node or an edge that is still
  present.
* Traversals are instrumented to also return the list of node ids passed to
  the `visit` callback, in call order, so that "visit is invoked exactly once
  per node" is statable; the instrumentation does not influence control flow.
* Callbacks (`visit`) are modelled as pure functions.  The JS `visit` may
  invoke `traversal.skipChildren()` / `traversal.stop()` and may return a new
  context (returning `undefined` keeps the context); a synchronous
  deterministic callback is therefore a function producing a `VisitOut`:
  the optional new context plus the two flags it set during the call.
-/

abbrev NodeId := String

/-- An edge of the graph: `{from: NodeId, to: NodeId}` in `Graph.js`
(`from` and `to` are reserved words in Lean, so the fields are named `fr`
and `toN`). -/
structure Edge where
  fr : NodeId
  toN : NodeId
deriving DecidableEq, Repr

/-- A graph node: the payload type is polymorphic but must expose a stable
`id` (the `Node: INode` bound in `Graph.js`); `value` is the payload slot
mutated in place by `replaceNodesConnectedTo`. -/
structure GNode (α : Type) where
  id : NodeId
  value : α
deriving DecidableEq, Repr

/-- The state of a `Graph` instance: `nodes` (a JS `Map` keyed by node id),
`edges` (a JS `Set` of edge objects) and the optional `rootNodeId`. -/
structure Graph (α : Type) where
  nodes : List (NodeId × GNode α)
  edges : List Edge
  rootNodeId : Option NodeId
deriving DecidableEq, Repr

/-- `new Map().set k v` semantics: overwrite the entry with key `k` in place
if present, otherwise append. -/
def mapSet {α : Type} (m : List (NodeId × GNode α)) (k : NodeId) (v : GNode α) :
    List (NodeId × GNode α) :=
  if m.any (fun p => p.1 = k) then
    m.map (fun p => if p.1 = k then (k, v) else p)
  else
    m ++ [(k, v)]

/-- `Map.get k` semantics. -/
def mapGet {α : Type} (m : List (NodeId × GNode α)) (k : NodeId) :
    Option (GNode α) :=
  (m.find? (fun p => p.1 = k)).map (fun p => p.2)

/-- `Map.delete k` semantics (a JS map has at most one entry per key). -/
def mapDelete {α : Type} (m : List (NodeId × GNode α)) (k : NodeId) :
    List (NodeId × GNode α) :=
  m.filter (fun p => p.1 ≠ k)

/-- `new Graph()` / `new this.constructor()`: empty nodes and edges, null root. -/
def Graph.empty {α : Type} : Graph α := ⟨[], [], none⟩

/-- `addNode(node)`: `this.nodes.set(node.id, node)`. -/
def Graph.addNode {α : Type} (g : Graph α) (node : GNode α) : Graph α :=
  { g with nodes := mapSet g.nodes node.id node }

/-- `hasNode(id)`: `this.nodes.has(id)`. -/
def Graph.hasNode {α : Type} (g : Graph α) (id : NodeId) : Bool :=
  (mapGet g.nodes id).isSome

/-- `getNode(id)`: `this.nodes.get(id)`. -/
def Graph.getNode {α : Type} (g : Graph α) (id : NodeId) : Option (GNode α) :=
  mapGet g.nodes id

/-- `setRootNode(node)`: adds the node and designates it as root. -/
def Graph.setRootNode {α : Type} (g : Graph α) (node : GNode α) : Graph α :=
  { g.addNode node with rootNodeId := some node.id }

/-- `getRootNode()`: `this.rootNodeId ? this.getNode(this.rootNodeId) : null`.
A JS empty string is falsy, hence the explicit `""` check. -/
def Graph.getRootNode {α : Type} (g : Graph α) : Option (GNode α) :=
  match g.rootNodeId with
  | none => none
  | some rid => if rid = "" then none else g.getNode rid

/-- `addEdge(edge)`: `this.edges.add(edge)`.  JS `Set.add` deduplicates by
object reference only; every caller passes a fresh (or foreign) object, so the
model appends unconditionally. -/
def Graph.addEdge {α : Type} (g : Graph α) (edge : Edge) : Graph α :=
  { g with edges := g.edges ++ [edge] }

/-- `hasEdge(edge)`: scans the edge set comparing `(from, to)` by value. -/
def Graph.hasEdge {α : Type} (g : Graph α) (edge : Edge) : Bool :=
  g.edges.any (fun e => edge.fr = e.fr ∧ edge.toN = e.toN)

/-- `getNodesConnectedTo(node)`: sources of the edges ending at `node`.  The
JS version maps `edge.from` through `nodes.get`, yielding `undefined` for a
dangling edge; the model drops such entries (`filterMap`) — the claims only
concern graphs in which every edge endpoint exists. -/
def Graph.getNodesConnectedTo {α : Type} (g : Graph α) (node : GNode α) :
    List (GNode α) :=
  (g.edges.filter (fun e => e.toN = node.id)).filterMap
    (fun e => mapGet g.nodes e.fr)

/-- `getNodesConnectedFrom(node)`: targets of the edges starting at `node`
(same dangling-edge convention as `getNodesConnectedTo`). -/
def Graph.getNodesConnectedFrom {α : Type} (g : Graph α) (node : GNode α) :
    List (GNode α) :=
  (g.edges.filter (fun e => e.fr = node.id)).filterMap
    (fun e => mapGet g.nodes e.toN)

/-- `merge(graph)`: `addNode` every node of the other graph (keyed by the
node's own `id`), then `addEdge` every edge. -/
def Graph.merge {α : Type} (g other : Graph α) : Graph α :=
  let g1 := other.nodes.foldl (fun acc p => acc.addNode p.2) g
  other.edges.foldl (fun acc e => acc.addEdge e) g1

/-- `isOrphanedNode(node)`: true iff no edge in the current edge set targets
`node.id`. -/
def Graph.isOrphanedNode {α : Type} (g : Graph α) (node : GNode α) : Bool :=
  ¬ g.edges.any (fun e => e.toN = node.id)

/-- The `for (let edge of this.edges)` loop of `removeNode`, parameterized by
the `removeEdge` callee at the cascade's remaining fuel: iterate a snapshot,
skipping edges the cascade already deleted (live-`Set` iteration semantics),
and `removeEdge` every remaining edge touching the node. -/
def removeNodeLoop {α : Type} (step : Graph α → Edge → Graph α × Graph α) :
    Graph α → NodeId → List Edge → Graph α → Graph α × Graph α
  | g, _, [], removed => (g, removed)
  | g, nid, e :: rest, removed =>
    if e ∈ g.edges ∧ (e.fr = nid ∨ e.toN = nid) then
      let p := step g e
      removeNodeLoop step p.1 nid rest (removed.merge p.2)
    else
      removeNodeLoop step g nid rest removed

/-- The `for (let [id, node] of this.nodes)` loop of `removeEdge`,
parameterized by the `removeNode` callee at the cascade's remaining fuel:
iterate a snapshot, skipping entries the cascade already deleted, and
`removeNode` the edge's target when it is orphaned. -/
def removeEdgeLoop {α : Type} (step : Graph α → GNode α → Graph α × Graph α) :
    Graph α → Edge → List (NodeId × GNode α) → Graph α → Graph α × Graph α
  | g, _, [], removed => (g, removed)
  | g, edge, (id, node) :: rest, removed =>
    if (mapGet g.nodes id).isSome ∧ edge.toN = id ∧ g.isOrphanedNode node then
      let p := step g node
      removeEdgeLoop step p.1 edge rest (removed.merge p.2)
    else
      removeEdgeLoop step g edge rest removed

mutual

/-- `removeNode(node)` body at a given fuel: delete the node from `nodes`,
record it in the removed graph, then walk the (live) edge set removing every
edge touching the node.  Returns `(graph after, removed)`.  Fuel 0 is never
reached when the wrapper's fuel bound is used. -/
def removeNodeF {α : Type} : Nat → Graph α → GNode α → Graph α × Graph α
  | 0, g, _ => (g, Graph.empty)
  | fuel + 1, g, node =>
    let g1 : Graph α := { g with nodes := mapDelete g.nodes node.id }
    removeNodeLoop (fun g' e => removeEdgeF fuel g' e) g1 node.id g1.edges
      (Graph.empty.addNode node)

/-- `removeEdge(edge)` body at a given fuel: delete the edge reference from
the edge set (`List.erase`: first structurally-equal occurrence), record it in
the removed graph, then walk the (live) node map removing the edge's target if
it became an orphan. -/
def removeEdgeF {α : Type} : Nat → Graph α → Edge → Graph α × Graph α
  | 0, g, _ => (g, Graph.empty)
  | fuel + 1, g, edge =>
    let g1 : Graph α := { g with edges := g.edges.erase edge }
    removeEdgeLoop (fun g' n => removeNodeF fuel g' n) g1 edge g1.nodes
      (Graph.empty.addEdge edge)

end

/-- A fuel bound dominating the depth of the removal cascade: every nested
call deletes a node or an edge that is still present, so the depth never
exceeds the total number of nodes and edges. -/
def graphFuel {α : Type} (g : Graph α) : Nat :=
  g.nodes.length + g.edges.length + 1

/-- `removeNode(node)`: returns `(graph after the call, removed subgraph)`. -/
def Graph.removeNode {α : Type} (g : Graph α) (node : GNode α) :
    Graph α × Graph α :=
  removeNodeF (graphFuel g) g node

/-- `removeEdge(edge)`: returns `(graph after the call, removed subgraph)`. -/
def Graph.removeEdge {α : Type} (g : Graph α) (edge : Edge) :
    Graph α × Graph α :=
  removeEdgeF (graphFuel g) g edge

/-- The in-place payload update `existingNode.value = toNode.value` of
`replaceNodesConnectedTo`, as a map over the node-map entries: the entry
keyed `kx` keeps its stored node's identity but takes the new value `v'`;
other entries are untouched. -/
def updValue {α : Type} (kx : NodeId) (v' : α) :
    NodeId × GNode α → NodeId × GNode α :=
  fun p => if p.1 = kx then (p.1, ⟨p.2.id, v'⟩) else p

/-- The body of the first loop of `replaceNodesConnectedTo` for one
`toNode`: reuse an existing node by updating its payload in place, or add the
new node (recording it in `added`); drop the node's edge from the stale list;
add the edge `(fromNode, toNode)` if absent (recording it in `added`).  The
accumulator is `(graph, edgesToRemove, added)`. -/
def replaceStep {α : Type} (fromNode : GNode α)
    (acc : Graph α × List Edge × Graph α) (toNode : GNode α) :
    Graph α × List Edge × Graph α :=
  let g := acc.1
  let edgesToRemove := acc.2.1
  let added := acc.2.2
  let (g, added) :=
    match g.getNode toNode.id with
    | none => (g.addNode toNode, added.addNode toNode)
    | some _ =>
      ({ g with nodes := g.nodes.map (updValue toNode.id toNode.value) },
       added)
  let edgesToRemove := edgesToRemove.filter (fun e => e.toN ≠ toNode.id)
  let edge : Edge := ⟨fromNode.id, toNode.id⟩
  let (g, added) :=
    if g.hasEdge edge then (g, added) else (g.addEdge edge, added.addEdge edge)
  (g, edgesToRemove, added)

/-- The body of the second loop of `replaceNodesConnectedTo` for one stale
edge: `removeEdge` it on the current graph and merge the cascade into the
`removed` accumulator. -/
def removalStep {α : Type} (acc : Graph α × Graph α) (edge : Edge) :
    Graph α × Graph α :=
  let p := acc.1.removeEdge edge
  (p.1, acc.2.merge p.2)

/-- `replaceNodesConnectedTo(fromNode, toNodes)`: returns
`(graph after the call, removed, added)`.  The first loop reuses existing
nodes (in-place `existingNode.value = toNode.value`), adds new ones, and adds
missing edges; the second loop `removeEdge`s every stale edge. -/
def Graph.replaceNodesConnectedTo {α : Type} (g : Graph α)
    (fromNode : GNode α) (toNodes : List (GNode α)) :
    Graph α × Graph α × Graph α :=
  let edgesBefore := g.edges.filter (fun e => e.fr = fromNode.id)
  let phase1 := toNodes.foldl (replaceStep fromNode) (g, edgesBefore, Graph.empty)
  let afterRemoval := phase1.2.1.foldl removalStep (phase1.1, Graph.empty)
  (afterRemoval.1, afterRemoval.2, phase1.2.2)

/-- The outcome of one call of the `visit` callback: the context it returned
(`none` models returning `undefined`, which keeps the current context) and
whether it called `traversal.skipChildren()` / `traversal.stop()` during the
call. -/
structure VisitOut (κ : Type) where
  ctxOut : Option κ
  skipChildren : Bool
  stopTrav : Bool

/-- `visited.add(id)` on the traversal's visited set (a JS `Set` of the
canonical node objects, equivalently their ids). -/
def insertVisited (visited : List NodeId) (id : NodeId) : List NodeId :=
  if id ∈ visited then visited else visited ++ [id]

/-- The `for (let child of getChildren(node))` loop of `walk`, parameterized
by the recursive `walk` at the remaining fuel: skip visited children,
otherwise mark the child visited and recurse; a sticky `stopped` aborts the
loop propagating the child's result. -/
def walkChildren {α κ : Type}
    (step : GNode α → Option κ → List NodeId →
      Option κ × List NodeId × Bool × List NodeId) :
    List (GNode α) → Option κ → List NodeId → List NodeId →
    Option κ × List NodeId × Bool × List NodeId
  | [], _, visited, log => (none, visited, false, log)
  | child :: rest, context, visited, log =>
    if child.id ∈ visited then
      walkChildren step rest context visited log
    else
      let r := step child context (insertVisited visited child.id)
      let log := log ++ r.2.2.2
      if r.2.2.1 then
        (r.1, r.2.1, true, log)
      else
        walkChildren step rest context r.2.1 log

/-- The inner `walk(node, context)` closure of `dfs`.  Returns
`(walk's return value, visited set, stopped flag, log of ids passed to
visit)`.  `skipped` is reset before each visit; `stopped` is sticky.  The
fuel only bounds the recursion depth, which the visited set keeps below the
number of distinct node ids; the wrapper's fuel bound is never exhausted. -/
def walkF {α κ : Type} : Nat → (GNode α → List (GNode α)) →
    (GNode α → Option κ → VisitOut κ) → GNode α → Option κ → List NodeId →
    Option κ × List NodeId × Bool × List NodeId
  | 0, _, _, _, _, visited => (none, visited, false, [])
  | fuel + 1, getChildren, visit, node, context, visited =>
    let visited := insertVisited visited node.id
    let out := visit node context
    let context := match out.ctxOut with
      | some c => some c
      | none => context
    if out.skipChildren then
      (none, visited, out.stopTrav, [node.id])
    else if out.stopTrav then
      (context, visited, true, [node.id])
    else
      walkChildren (fun n c v => walkF fuel getChildren visit n c v)
        (getChildren node) context visited [node.id]

/-- `dfs({visit, startNode, getChildren})`: start at `startNode || root`,
return `null` when there is no start, else run `walk`.  The extra `List
NodeId` component is the instrumentation log of visited ids. -/
def Graph.dfs {α κ : Type} (g : Graph α)
    (visit : GNode α → Option κ → VisitOut κ) (startNode : Option (GNode α))
    (getChildren : GNode α → List (GNode α)) : Option κ × List NodeId :=
  match (match startNode with
         | some n => some n
         | none => g.getRootNode) with
  | none => (none, [])
  | some root =>
    let r := walkF (g.nodes.length + 2) getChildren visit root none []
    (r.1, r.2.2.2)

/-- `traverse(visit, startNode)`: `dfs` along outgoing edges. -/
def Graph.traverse {α κ : Type} (g : Graph α)
    (visit : GNode α → Option κ → VisitOut κ)
    (startNode : Option (GNode α)) : Option κ × List NodeId :=
  g.dfs visit startNode (fun n => g.getNodesConnectedFrom n)

/-- `traverseAncestors(startNode, visit)`: `dfs` along incoming edges. -/
def Graph.traverseAncestors {α κ : Type} (g : Graph α) (startNode : GNode α)
    (visit : GNode α → Option κ → VisitOut κ) : Option κ × List NodeId :=
  g.dfs visit (some startNode) (fun n => g.getNodesConnectedTo n)

/-- The `while (queue.length > 0)` loop of `bfs`.  Returns the found node (if
`visit` returned `true`) and the log of visited ids.  Fuel bounds the number
of dequeue steps, which the visited set keeps below the number of distinct
ids ever enqueued. -/
def bfsLoopF {α : Type} (fuel : Nat) (g : Graph α) (visit : GNode α → Bool)
    (queue : List (GNode α)) (visited : List NodeId) (log : List NodeId) :
    Option (GNode α) × List NodeId :=
  match fuel with
  | 0 => (none, log)
  | fuel + 1 =>
    match queue with
    | [] => (none, log)
    | node :: rest =>
      let log := log ++ [node.id]
      if visit node then (some node, log)
      else
        let next := (g.getNodesConnectedFrom node).foldl
          (fun (acc : List (GNode α) × List NodeId) child =>
            if child.id ∈ acc.2 then acc
            else (acc.1 ++ [child], acc.2 ++ [child.id]))
          (rest, visited)
        bfsLoopF fuel g visit next.1 next.2 log

/-- `bfs(visit)`: breadth-first from the root; `visit` returning `true` stops
and returns that node.  Instrumented with the visit log like `dfs`. -/
def Graph.bfs {α : Type} (g : Graph α) (visit : GNode α → Bool) :
    Option (GNode α) × List NodeId :=
  match g.getRootNode with
  | none => (none, [])
  | some root =>
    bfsLoopF (g.nodes.length + 2) g visit [root] [root.id] []

/-- A `RequestInvalidation` (`assetUtils.js`): either a file-content
invalidation or an environment-variable invalidation.  These are the only two
discriminator values; `getInvalidationId` throws on any other, which the
inductive makes unrepresentable. -/
inductive RequestInvalidation where
  | file (filePath : String)
  | env (key : String)
deriving DecidableEq, Repr

/-- `getInvalidationId(invalidation)`: `'file:' + filePath` or `'env:' + key`. -/
def getInvalidationId : RequestInvalidation → String
  | .file filePath => "file:" ++ filePath
  | .env key => "env:" ++ key

/-- The slice of `ParcelOptions` that `getInvalidationHash` consumes, with
the external world held fixed: `envVar` is the `options.env` lookup and
`fileMd5 p` is the digest `md5FromFilePath(options.inputFS, p)` of the (fixed)
content of file `p`. -/
structure ModelOptions where
  envVar : String → Option String
  fileMd5 : String → String

/-- The string fed to `hash.update` for one invalidation inside
`getInvalidationHash`: the file-content digest for a file invalidation,
`key + ':' + (options.env[key] || '')` for an env invalidation. -/
def invalidationChunk (options : ModelOptions) : RequestInvalidation → String
  | .file filePath => options.fileMd5 filePath
  | .env key => key ++ ":" ++ ((options.envVar key).getD "")

/-- `getInvalidationHash(invalidations, options)`: sort by invalidation id
using the comparator `(a, b) => (id(a) < id(b) ? -1 : 1)` (modelled by an
insertion sort over string `<`, which agrees with the JS sort on the
two-element arrays at issue), then fold the per-invalidation update strings
into a streaming digest.  The md5 digest itself is taken as a parameter
`digest` applied to the update sequence: the hex result is a function of
exactly the updates fed in. -/
def getInvalidationHash (digest : List String → String)
    (options : ModelOptions) (invalidations : List RequestInvalidation) :
    String :=
  let sorted := invalidations.insertionSort
    (fun a b => getInvalidationId a < getInvalidationId b)
  digest (sorted.map (invalidationChunk options))

/-- The fields of `AssetOptions` (`assetUtils.js`) that feed the constructed
asset's identity and defaulted flags.  `ε` is the opaque `Environment` type;
`ty` is the source's `type` field (`type` is reserved in Lean).  Optional
fields are `Option`s (`undefined`/`null` is `none`).  Pure passthrough fields
of external types (hash, contentKey, mapKey, astKey, astGenerator,
dependencies, meta, outputHash, stats, symbols, plugin, configPath,
configKeyPath) are omitted: `createAsset` copies them unchanged and no claim
mentions them. -/
structure AssetOptions (ε : Type) where
  id : Option String
  committed : Option Bool
  idBase : Option String
  filePath : String
  query : Option (List (String × String))
  ty : String
  isIsolated : Option Bool
  isInline : Option Bool
  isSplittable : Option Bool
  isSource : Bool
  env : ε
  pipeline : Option String
  sideEffects : Option Bool
  uniqueKey : Option String

/-- The corresponding slice of the constructed `Asset` record. -/
structure Asset (ε : Type) where
  id : String
  committed : Bool
  filePath : String
  query : List (String × String)
  isIsolated : Bool
  isInline : Bool
  isSplittable : Option Bool
  ty : String
  isSource : Bool
  pipeline : Option String
  env : ε
  sideEffects : Bool
  uniqueKey : String

/-- `createAsset(options)`: the id is the explicit `options.id` when given,
otherwise `md5FromString(idBase + type + getEnvironmentHash(env) + uniqueKey +
(pipeline ?? ''))` where `idBase` is `options.idBase != null ? options.idBase
: options.filePath` and `uniqueKey` is `options.uniqueKey || ''` (for strings
`x || ''` and `x ?? ''` both default to `''`, the empty string being falsy).
`md5FromString` and `getEnvironmentHash` are opaque deterministic functions,
taken as parameters. -/
def createAsset {ε : Type} (md5FromString : String → String)
    (getEnvironmentHash : ε → String) (options : AssetOptions ε) : Asset ε :=
  let idBase := options.idBase.getD options.filePath
  let uniqueKey := options.uniqueKey.getD ""
  { id := match options.id with
      | some i => i
      | none =>
        md5FromString
          (idBase ++ options.ty ++ getEnvironmentHash options.env ++
            uniqueKey ++ options.pipeline.getD "")
    committed := options.committed.getD false
    filePath := options.filePath
    query := options.query.getD []
    isIsolated := options.isIsolated.getD false
    isInline := options.isInline.getD false
    isSplittable := options.isSplittable
    ty := options.ty
    isSource := options.isSource
    pipeline := options.pipeline
    env := options.env
    sideEffects := options.sideEffects.getD true
    uniqueKey := uniqueKey }

/-! Concrete instances used by the testable-property claims.  Payloads are
`Nat` values; ids follow the spec's scenario names. -/

/-- The `root` node of the concrete scenarios. -/
def exRoot : GNode Nat := ⟨"root", 0⟩

/-- Node `A`. -/
def exA : GNode Nat := ⟨"A", 0⟩

/-- Node `B`. -/
def exB : GNode Nat := ⟨"B", 0⟩

/-- Node `C`. -/
def exC : GNode Nat := ⟨"C", 0⟩

/-- Node `X` as stored in the graph (payload `0`). -/
def exX : GNode Nat := ⟨"X", 0⟩

/-- Node `X` as passed to `replaceNodesConnectedTo` (same id, new payload). -/
def exX' : GNode Nat := ⟨"X", 7⟩

/-- Node `Y`. -/
def exY : GNode Nat := ⟨"Y", 0⟩

/-- Node `Z` (not previously in the graph). -/
def exZ : GNode Nat := ⟨"Z", 0⟩

/-- The chain `root -> A -> B -> C` of the cascading-delete scenario. -/
def exChain : Graph Nat :=
  ⟨[("root", exRoot), ("A", exA), ("B", exB), ("C", exC)],
   [⟨"root", "A"⟩, ⟨"A", "B"⟩, ⟨"B", "C"⟩], some "root"⟩

/-- The single path `root -> A -> B` of the orphan-pruning scenario. -/
def exPath : Graph Nat :=
  ⟨[("root", exRoot), ("A", exA), ("B", exB)],
   [⟨"root", "A"⟩, ⟨"A", "B"⟩], some "root"⟩

/-- The same graph with the extra edge `root -> B`. -/
def exPath2 : Graph Nat :=
  ⟨[("root", exRoot), ("A", exA), ("B", exB)],
   [⟨"root", "A"⟩, ⟨"A", "B"⟩, ⟨"root", "B"⟩], some "root"⟩

/-- A graph in which root's direct successors are exactly `{X, Y}` but `Y`
also has the incoming edge `X -> Y`. -/
def exReplaceCex : Graph Nat :=
  ⟨[("root", exRoot), ("X", exX), ("Y", exY)],
   [⟨"root", "X"⟩, ⟨"root", "Y"⟩, ⟨"X", "Y"⟩], some "root"⟩

/-- The two-node cycle `A -> B, B -> A`. -/
def exCycle : Graph Nat :=
  ⟨[("A", exA), ("B", exB)], [⟨"A", "B"⟩, ⟨"B", "A"⟩], none⟩

/-- A one-edge graph used for the duplicate-pair counterexample. -/
def exOneEdge : Graph Nat := ⟨[], [⟨"a", "b"⟩], none⟩

/-- A graph whose `rootNodeId` is unset. -/
def exNoRoot : Graph Nat := ⟨[("A", exA)], [⟨"A", "A"⟩], none⟩

/-- A visit callback that never skips, never stops and never changes the
context. -/
def plainVisit {α : Type} : GNode α → Option Nat → VisitOut Nat :=
  fun _ _ => ⟨none, false, false⟩

/-- Node `W`, downstream of `Y` in the incremental-replace scenario. -/
def exW : GNode Nat := ⟨"W", 0⟩

/-- The incremental-replace scenario graph: `root -> X`, `root -> Y`,
`Y -> W`; the only edge into `Y` is `(root, Y)` and nothing targets `root`. -/
def exReplaceOk : Graph Nat :=
  ⟨[("root", exRoot), ("X", exX), ("Y", exY), ("W", exW)],
   [⟨"root", "X"⟩, ⟨"root", "Y"⟩, ⟨"Y", "W"⟩], some "root"⟩

/-- Invariant used to show that a node `k` with a permanent incoming edge
`(r, k)` survives a removal cascade: the edge `(r, k)` is present, `k` is a
key of the node map, no edge of the graph targets `r` (so `r` can never be
orphan-checked, hence `(r, k)` is never processed), and the node map is
well-keyed (each entry's key is its node's own id, the JS `addNode`
invariant). -/
def ProtectedG {α : Type} (r k : NodeId) (g : Graph α) : Prop :=
  (⟨r, k⟩ : Edge) ∈ g.edges ∧ k ∈ g.nodes.map Prod.fst ∧
  (∀ e ∈ g.edges, e.toN ≠ r) ∧ (∀ p ∈ g.nodes, p.2.id = p.1)

/-! Claim theorems and supporting lemmas. -/

/-- C2: on the single path `root -> A -> B`, `removeEdge(A->B)` removes the
edge and the now-orphaned node `B`, and the returned removed-set contains
exactly that edge and node `B`; with the additional edge `root -> B`,
`removeEdge(A->B)` leaves node `B` in the graph and the removed-set contains
only the edge `(A,B)`. -/
theorem removeEdge_orphan_pruning :
    exPath.removeEdge ⟨"A", "B"⟩ =
      (⟨[("root", exRoot), ("A", exA)], [⟨"root", "A"⟩], some "root"⟩,
       ⟨[("B", exB)], [⟨"A", "B"⟩], none⟩) ∧
    exPath2.removeEdge ⟨"A", "B"⟩ =
      (⟨[("root", exRoot), ("A", exA), ("B", exB)],
        [⟨"root", "A"⟩, ⟨"root", "B"⟩], some "root"⟩,
       ⟨[], [⟨"A", "B"⟩], none⟩) := by
  decide

/-- C3: on the chain `root -> A -> B -> C`, `removeNode(A)` deletes node `A`,
edge `(A,B)`, the orphaned node `B`, edge `(B,C)` and the orphaned node `C`,
and the returned removed-set is exactly the downstream chain. -/
theorem removeNode_cascading_delete :
    exChain.removeNode exA =
      (⟨[("root", exRoot)], [], some "root"⟩,
       ⟨[("A", exA), ("B", exB), ("C", exC)],
        [⟨"root", "A"⟩, ⟨"A", "B"⟩, ⟨"B", "C"⟩], none⟩) := by
  decide

/-- C8: on the cycle `A -> B, B -> A`, `traverse` starting at `A` (with any
visit callback that neither skips children nor stops) terminates and passes
exactly `A` then `B` to the visit callback, each exactly once — the visited
set prevents any revisit. -/
theorem traverse_cycle_safety {κ : Type}
    (visit : GNode Nat → Option κ → VisitOut κ)
    (hsk : ∀ n c, (visit n c).skipChildren = false)
    (hst : ∀ n c, (visit n c).stopTrav = false) :
    (exCycle.traverse visit (some exA)).2 = ["A", "B"] := by
  simp [Graph.traverse, Graph.dfs, walkF, walkChildren, hsk, hst,
    insertVisited, Graph.getNodesConnectedFrom, exCycle, exA, exB, mapGet,
    List.filter, List.filterMap, List.find?]

/-- Witness for C8: the hypotheses hold for the callback that never skips,
stops or changes context, and the traversal log is `[A, B]`. -/
theorem traverse_cycle_safety_witness :
    (exCycle.traverse (fun n c => plainVisit n c) (some exA)).2 = ["A", "B"] :=
  traverse_cycle_safety (fun n c => plainVisit n c) (fun _ _ => rfl)
    (fun _ _ => rfl)

/-- C10: on any graph whose `rootNodeId` is unset, `traverse` without a start
node and `bfs` both return no node and never invoke the visit callback (the
instrumentation log stays empty). -/
theorem traverse_bfs_no_root {α κ : Type} (g : Graph α)
    (visit : GNode α → Option κ → VisitOut κ) (visitB : GNode α → Bool)
    (h : g.rootNodeId = none) :
    g.traverse visit none = (none, []) ∧ g.bfs visitB = (none, []) := by
  constructor
  · simp [Graph.traverse, Graph.dfs, Graph.getRootNode, h]
  · simp [Graph.bfs, Graph.getRootNode, h]

/-- Witness for C10 at the concrete rootless graph `exNoRoot`. -/
theorem traverse_bfs_no_root_witness :
    exNoRoot.traverse (fun n c => plainVisit n c) none = (none, []) ∧
    exNoRoot.bfs (fun _ => true) = (none, []) :=
  traverse_bfs_no_root exNoRoot (fun n c => plainVisit n c) (fun _ => true) rfl

/-- Counterexample to C4 as stated: on the chain `root -> A -> B -> C`,
calling `removeNode(A)` twice is safe and leaves the graph unchanged, but the
second call's removed-set is *not* empty — `removeNode` unconditionally
records its argument node, so the second removed-set contains node `A`. -/
theorem removeNode_twice_counterexample :
    ((exChain.removeNode exA).1.removeNode exA).2.nodes = [("A", exA)] ∧
    ((exChain.removeNode exA).1.removeNode exA).2.nodes ≠ [] := by
  decide

/-- Counterexample to C5 as stated: `exOneEdge` already contains an edge with
pair `(a, b)`, yet `addEdge(⟨a, b⟩)` is not a no-op — JS `Set.add`
deduplicates by object reference only, so the edge set ends up with a
duplicate `(from, to)` pair. -/
theorem addEdge_duplicate_counterexample :
    exOneEdge.hasEdge ⟨"a", "b"⟩ = true ∧
    (exOneEdge.addEdge ⟨"a", "b"⟩).edges = [⟨"a", "b"⟩, ⟨"a", "b"⟩] := by
  decide

/-- C5 amended: `addEdge(e)` always appends the (fresh) edge object to the
edge set — JS `Set` semantics deduplicate by object reference, not by
`(from, to)` value, so inserting a distinct object whose pair already occurs
produces a duplicate pair; value-level deduplication is the caller's job via
`hasEdge` (as `replaceNodesConnectedTo` does).  Afterwards `hasEdge e` holds. -/
theorem addEdge_appends {α : Type} (g : Graph α) (e : Edge) :
    (g.addEdge e).edges = g.edges ++ [e] ∧ (g.addEdge e).hasEdge e = true := by
  refine ⟨rfl, ?_⟩
  simp [Graph.addEdge, Graph.hasEdge]

/-- Counterexample to C1 as stated: in `exReplaceCex` the direct successors
of `root` are exactly `{X, Y}` and `Z` is not in the graph, yet
`replaceNodesConnectedTo(root, [X', Z])` returns a removed-set containing *no*
node at all — in particular not `Y`, which survives because the extra edge
`X -> Y` keeps it non-orphaned. -/
theorem replaceNodesConnectedTo_counterexample :
    (exReplaceCex.edges.filter (fun e => e.fr = exRoot.id) =
      [⟨"root", "X"⟩, ⟨"root", "Y"⟩]) ∧
    exReplaceCex.getNode "Z" = none ∧
    (exReplaceCex.replaceNodesConnectedTo exRoot [exX', exZ]).2.1.nodes = [] := by
  decide

theorem mapGet_cons {α : Type} (p : NodeId × GNode α)
    (rest : List (NodeId × GNode α)) (k : NodeId) :
    mapGet (p :: rest) k = if p.1 = k then some p.2 else mapGet rest k := by
  by_cases hp : p.1 = k <;> simp [mapGet, List.find?_cons, hp]

theorem mapGet_append {α : Type} (m m' : List (NodeId × GNode α)) (k : NodeId) :
    mapGet (m ++ m') k = (mapGet m k).or (mapGet m' k) := by
  simp only [mapGet, List.find?_append]
  cases m.find? (fun p => decide (p.1 = k)) <;> simp

theorem mapSet_cons_ne {α : Type} {p : NodeId × GNode α}
    {rest : List (NodeId × GNode α)} {k : NodeId} (v : GNode α)
    (hp : p.1 ≠ k) : mapSet (p :: rest) k v = p :: mapSet rest k v := by
  by_cases hr : rest.any (fun q => q.1 = k)
  · simp [mapSet, List.any_cons, hp, hr]
  · simp [mapSet, List.any_cons, hp, hr]

theorem mapGet_mapIf_ne {α : Type} (m : List (NodeId × GNode α))
    (k k' : NodeId) (v : GNode α) (h : k' ≠ k) :
    mapGet (m.map (fun q => if q.1 = k then (k, v) else q)) k' =
      mapGet m k' := by
  have h1 : ¬ k = k' := fun hh => h hh.symm
  induction m with
  | nil => rfl
  | cons q rest ih =>
    by_cases hq : q.1 = k
    · have h2 : ¬ q.1 = k' := by rw [hq]; exact h1
      simp only [List.map_cons, if_pos hq, mapGet_cons, if_neg h1, if_neg h2]
      exact ih
    · simp only [List.map_cons, if_neg hq, mapGet_cons]
      by_cases hq' : q.1 = k' <;> simp [hq', ih]

theorem mapGet_mapSet_self {α : Type} (m : List (NodeId × GNode α))
    (k : NodeId) (v : GNode α) : mapGet (mapSet m k v) k = some v := by
  induction m with
  | nil => simp [mapSet, mapGet]
  | cons p rest ih =>
    by_cases hp : p.1 = k
    · have hany : (p :: rest).any (fun q => q.1 = k) = true := by
        simp [List.any_cons, hp]
      unfold mapSet
      rw [if_pos hany]
      simp [mapGet_cons, hp]
    · rw [mapSet_cons_ne v hp, mapGet_cons, if_neg hp]
      exact ih

theorem mapGet_mapSet_ne {α : Type} (m : List (NodeId × GNode α))
    (k k' : NodeId) (v : GNode α) (h : k' ≠ k) :
    mapGet (mapSet m k v) k' = mapGet m k' := by
  unfold mapSet
  split
  · exact mapGet_mapIf_ne m k k' v h
  · rw [mapGet_append]
    simp [mapGet_cons, mapGet, Ne.symm h]

theorem foldl_addNode_edges {α : Type} (l : List (NodeId × GNode α))
    (g : Graph α) :
    (l.foldl (fun acc p => acc.addNode p.2) g).edges = g.edges := by
  induction l generalizing g with
  | nil => rfl
  | cons p rest ih => simpa [Graph.addNode] using ih (g.addNode p.2)

theorem foldl_addNode_root {α : Type} (l : List (NodeId × GNode α))
    (g : Graph α) :
    (l.foldl (fun acc p => acc.addNode p.2) g).rootNodeId = g.rootNodeId := by
  induction l generalizing g with
  | nil => rfl
  | cons p rest ih => simpa [Graph.addNode] using ih (g.addNode p.2)

theorem foldl_addEdge_edges {α : Type} (l : List Edge) (g : Graph α) :
    (l.foldl (fun acc e => acc.addEdge e) g).edges = g.edges ++ l := by
  induction l generalizing g with
  | nil => simp
  | cons e rest ih =>
    rw [List.foldl_cons, ih (g.addEdge e)]
    simp [Graph.addEdge]

theorem foldl_addEdge_nodes {α : Type} (l : List Edge) (g : Graph α) :
    (l.foldl (fun acc e => acc.addEdge e) g).nodes = g.nodes := by
  induction l generalizing g with
  | nil => rfl
  | cons e rest ih => simpa [Graph.addEdge] using ih (g.addEdge e)

theorem foldl_addEdge_root {α : Type} (l : List Edge) (g : Graph α) :
    (l.foldl (fun acc e => acc.addEdge e) g).rootNodeId = g.rootNodeId := by
  induction l generalizing g with
  | nil => rfl
  | cons e rest ih => simpa [Graph.addEdge] using ih (g.addEdge e)

theorem merge_edges {α : Type} (g other : Graph α) :
    (g.merge other).edges = g.edges ++ other.edges := by
  unfold Graph.merge
  rw [foldl_addEdge_edges, foldl_addNode_edges]

theorem merge_root {α : Type} (g other : Graph α) :
    (g.merge other).rootNodeId = g.rootNodeId := by
  unfold Graph.merge
  rw [foldl_addEdge_root, foldl_addNode_root]

theorem merge_nodes {α : Type} (g other : Graph α) :
    (g.merge other).nodes =
      other.nodes.foldl (fun acc p => mapSet acc p.2.id p.2) g.nodes := by
  unfold Graph.merge
  rw [foldl_addEdge_nodes]
  induction other.nodes generalizing g with
  | nil => rfl
  | cons p rest ih => simpa [Graph.addNode] using ih (g.addNode p.2)

theorem foldl_mapSet_preserved {α : Type} (l : List (NodeId × GNode α))
    (m : List (NodeId × GNode α)) (k : NodeId)
    (h : ∀ p ∈ l, p.2.id ≠ k) :
    mapGet (l.foldl (fun acc p => mapSet acc p.2.id p.2) m) k = mapGet m k := by
  induction l generalizing m with
  | nil => rfl
  | cons p rest ih =>
    rw [List.foldl_cons, ih _ (fun q hq => h q (List.mem_cons_of_mem p hq)),
      mapGet_mapSet_ne _ _ _ _ (Ne.symm (h p (List.mem_cons_self p rest)))]

theorem foldl_mapSet_get {α : Type} (l : List (NodeId × GNode α))
    (base : List (NodeId × GNode α)) (k : NodeId) (v : GNode α)
    (hnd : (l.map Prod.fst).Nodup) (hwk : ∀ p ∈ l, p.2.id = p.1)
    (hget : mapGet l k = some v) :
    mapGet (l.foldl (fun acc p => mapSet acc p.2.id p.2) base) k = some v := by
  induction l generalizing base with
  | nil => simp [mapGet] at hget
  | cons p rest ih =>
    rw [mapGet_cons] at hget
    rw [List.foldl_cons]
    by_cases hp : p.1 = k
    · rw [if_pos hp] at hget
      obtain rfl := Option.some_injective _ hget
      have hidk : p.2.id = k := (hwk p (List.mem_cons_self p rest)).trans hp
      rw [foldl_mapSet_preserved]
      · rw [hidk, mapGet_mapSet_self]
      · intro q hq
        have hmem : q.1 ∈ rest.map Prod.fst := List.mem_map_of_mem _ hq
        have hkq : q.1 ≠ p.1 := by
          intro hkq
          rw [List.map_cons] at hnd
          exact (List.nodup_cons.mp hnd).1 (hkq ▸ hmem)
        rw [hwk q (List.mem_cons_of_mem p hq)]
        rw [hp] at hkq
        exact hkq
    · rw [if_neg hp] at hget
      have hnd' : (rest.map Prod.fst).Nodup :=
        List.Nodup.of_cons (by rwa [List.map_cons] at hnd)
      have hwk' : ∀ q ∈ rest, q.2.id = q.1 :=
        fun q hq => hwk q (List.mem_cons_of_mem p hq)
      apply ih _ hnd' hwk' hget

/-- C9: `merge` adds all of the other graph's nodes (overwriting on id
conflict, so a key bound in the other graph ends up with the other graph's
node) and appends all of its edges, and leaves the receiver's `rootNodeId`
unchanged — merging never adopts the other graph's root, even when the
receiver has none and the other graph has one.  The hypotheses are the JS
`Map` invariants of the other graph: unique keys, each entry keyed by its
node's own id. -/
theorem merge_frame {α : Type} (g other : Graph α)
    (hnd : (other.nodes.map Prod.fst).Nodup)
    (hwk : ∀ p ∈ other.nodes, p.2.id = p.1) :
    (g.merge other).rootNodeId = g.rootNodeId ∧
    (g.merge other).edges = g.edges ++ other.edges ∧
    ∀ k v, mapGet other.nodes k = some v →
      mapGet (g.merge other).nodes k = some v := by
  refine ⟨merge_root g other, merge_edges g other, ?_⟩
  intro k v hget
  rw [merge_nodes]
  exact foldl_mapSet_get other.nodes g.nodes k v hnd hwk hget

/-- Witness for C9: a rootless receiver merged with a rooted graph keeps its
`none` root; the merged graph contains the other graph's node and both edge
lists. -/
theorem merge_frame_witness :
    ((⟨[("a", ⟨"a", 1⟩)], [⟨"a", "b"⟩], none⟩ : Graph Nat).merge
        ⟨[("r", ⟨"r", 5⟩)], [⟨"r", "s"⟩], some "r"⟩).rootNodeId = none ∧
    ((⟨[("a", ⟨"a", 1⟩)], [⟨"a", "b"⟩], none⟩ : Graph Nat).merge
        ⟨[("r", ⟨"r", 5⟩)], [⟨"r", "s"⟩], some "r"⟩).edges =
      [⟨"a", "b"⟩] ++ [⟨"r", "s"⟩] ∧
    ∀ k v, mapGet [("r", (⟨"r", 5⟩ : GNode Nat))] k = some v →
      mapGet (((⟨[("a", ⟨"a", 1⟩)], [⟨"a", "b"⟩], none⟩ : Graph Nat).merge
        ⟨[("r", ⟨"r", 5⟩)], [⟨"r", "s"⟩], some "r"⟩)).nodes k = some v :=
  merge_frame (⟨[("a", ⟨"a", 1⟩)], [⟨"a", "b"⟩], none⟩ : Graph Nat)
    ⟨[("r", ⟨"r", 5⟩)], [⟨"r", "s"⟩], some "r"⟩ (by decide)
    (by intro p hp; simp at hp; rw [hp])

/-- Two invalidations with the same invalidation id produce the same digest
update: equal ids force the same discriminator and the same file path /
environment key. -/
theorem invalidation_chunk_of_id_eq (options : ModelOptions)
    (a b : RequestInvalidation)
    (h : getInvalidationId a = getInvalidationId b) :
    invalidationChunk options a = invalidationChunk options b := by
  cases a with
  | file p =>
    cases b with
    | file q =>
      have h2 := congrArg String.data h
      simp [getInvalidationId, String.data_append] at h2
      simp [invalidationChunk, String.ext h2]
    | env k =>
      have h2 := congrArg String.data h
      simp [getInvalidationId, String.data_append] at h2
  | env k =>
    cases b with
    | file q =>
      have h2 := congrArg String.data h
      simp [getInvalidationId, String.data_append] at h2
    | env k' =>
      have h2 := congrArg String.data h
      simp [getInvalidationId, String.data_append] at h2
      simp [invalidationChunk, String.ext h2]

/-- C6: with the underlying file contents and environment held fixed (the
`options` oracle) and for every digest function, `getInvalidationHash`
returns the same hash for `[a, b]` and `[b, a]`: the sort by invalidation id
normalizes the order, and when the two ids tie, the two update strings
coincide. -/
theorem getInvalidationHash_order_independent (digest : List String → String)
    (options : ModelOptions) (a b : RequestInvalidation) :
    getInvalidationHash digest options [a, b] =
      getInvalidationHash digest options [b, a] := by
  by_cases hab : getInvalidationId a < getInvalidationId b
  · have hba : ¬ getInvalidationId b < getInvalidationId a := lt_asymm hab
    simp [getInvalidationHash, List.insertionSort, List.orderedInsert, hab, hba]
  · by_cases hba : getInvalidationId b < getInvalidationId a
    · simp [getInvalidationHash, List.insertionSort, List.orderedInsert, hab,
        hba]
    · have heq : getInvalidationId a = getInvalidationId b :=
        le_antisymm (not_lt.mp hba) (not_lt.mp hab)
      have hc := invalidation_chunk_of_id_eq options a b heq
      simp [getInvalidationHash, List.insertionSort, List.orderedInsert, hab,
        hba, hc]

/-- C7: when no explicit id is supplied, `createAsset` computes the asset id
as the hash of `idBase ++ type ++ environment-hash ++ uniqueKey ++ pipeline`
in that fixed order, with `idBase` defaulting to `filePath` and `uniqueKey`
and `pipeline` defaulting to the empty string; and any two calls whose five
hash inputs agree return identical ids. -/
theorem createAsset_id_deterministic {ε : Type} (md5 : String → String)
    (envHash : ε → String) (o o' : AssetOptions ε)
    (h : o.id = none) (h' : o'.id = none)
    (hbase : o.idBase.getD o.filePath = o'.idBase.getD o'.filePath)
    (hty : o.ty = o'.ty) (henv : envHash o.env = envHash o'.env)
    (hkey : o.uniqueKey.getD "" = o'.uniqueKey.getD "")
    (hpipe : o.pipeline.getD "" = o'.pipeline.getD "") :
    (createAsset md5 envHash o).id =
      md5 (o.idBase.getD o.filePath ++ o.ty ++ envHash o.env ++
        o.uniqueKey.getD "" ++ o.pipeline.getD "") ∧
    (createAsset md5 envHash o).id = (createAsset md5 envHash o').id := by
  have key : ∀ (q : AssetOptions ε), q.id = none →
      (createAsset md5 envHash q).id =
        md5 (q.idBase.getD q.filePath ++ q.ty ++ envHash q.env ++
          q.uniqueKey.getD "" ++ q.pipeline.getD "") := by
    intro q hq
    simp [createAsset, hq]
  refine ⟨key o h, ?_⟩
  rw [key o h, key o' h', hbase, hty, henv, hkey, hpipe]

/-- Witness for C7: a concrete options record with no explicit id, no idBase
override and defaulted uniqueKey/pipeline; the id is the digest of
`filePath + type + envHash + "" + ""`, and a second identical call agrees. -/
theorem createAsset_id_deterministic_witness :
    (createAsset (fun s => "#" ++ s) (fun _ : Unit => "E")
        ⟨none, none, none, "src/app.js", none, "js", none, none, none, true,
          (), none, none, none⟩).id =
      ("#" ++ ("src/app.js" ++ "js" ++ "E" ++ "" ++ "")) ∧
    (createAsset (fun s => "#" ++ s) (fun _ : Unit => "E")
        ⟨none, none, none, "src/app.js", none, "js", none, none, none, true,
          (), none, none, none⟩).id =
      (createAsset (fun s => "#" ++ s) (fun _ : Unit => "E")
        ⟨none, none, none, "src/app.js", none, "js", none, none, none, true,
          (), none, none, none⟩).id := by
  have h := createAsset_id_deterministic (fun s => "#" ++ s)
    (fun _ : Unit => "E")
    ⟨none, none, none, "src/app.js", none, "js", none, none, none, true,
      (), none, none, none⟩
    ⟨none, none, none, "src/app.js", none, "js", none, none, none, true,
      (), none, none, none⟩
    rfl rfl rfl rfl rfl rfl rfl
  exact ⟨h.1, h.2⟩

theorem removeNodeLoop_sublist {α : Type}
    (step : Graph α → Edge → Graph α × Graph α)
    (hstep : ∀ g e, List.Sublist (step g e).1.nodes g.nodes ∧
      List.Sublist (step g e).1.edges g.edges) :
    ∀ (snap : List Edge) (g : Graph α) (nid : NodeId) (removed : Graph α),
      List.Sublist (removeNodeLoop step g nid snap removed).1.nodes g.nodes ∧
      List.Sublist (removeNodeLoop step g nid snap removed).1.edges g.edges := by
  intro snap
  induction snap with
  | nil =>
    intro g nid removed
    exact ⟨List.Sublist.refl _, List.Sublist.refl _⟩
  | cons e rest ih =>
    intro g nid removed
    by_cases hc : e ∈ g.edges ∧ (e.fr = nid ∨ e.toN = nid)
    · simp only [removeNodeLoop, if_pos hc]
      obtain ⟨h1, h2⟩ := ih (step g e).1 nid (removed.merge (step g e).2)
      exact ⟨h1.trans (hstep g e).1, h2.trans (hstep g e).2⟩
    · simp only [removeNodeLoop, if_neg hc]
      exact ih g nid removed

theorem removeEdgeLoop_sublist {α : Type}
    (step : Graph α → GNode α → Graph α × Graph α)
    (hstep : ∀ g n, List.Sublist (step g n).1.nodes g.nodes ∧
      List.Sublist (step g n).1.edges g.edges) :
    ∀ (snap : List (NodeId × GNode α)) (g : Graph α) (edge : Edge)
      (removed : Graph α),
      List.Sublist (removeEdgeLoop step g edge snap removed).1.nodes g.nodes ∧
      List.Sublist (removeEdgeLoop step g edge snap removed).1.edges g.edges := by
  intro snap
  induction snap with
  | nil =>
    intro g edge removed
    exact ⟨List.Sublist.refl _, List.Sublist.refl _⟩
  | cons p rest ih =>
    intro g edge removed
    obtain ⟨id, node⟩ := p
    by_cases hc : (mapGet g.nodes id).isSome ∧ edge.toN = id ∧
        g.isOrphanedNode node
    · simp only [removeEdgeLoop, if_pos hc]
      obtain ⟨h1, h2⟩ := ih (step g node).1 edge (removed.merge (step g node).2)
      exact ⟨h1.trans (hstep g node).1, h2.trans (hstep g node).2⟩
    · simp only [removeEdgeLoop, if_neg hc]
      exact ih g edge removed

/-- The removal cascade never adds: at every fuel, the nodes and edges of the
resulting graph are sublists of the input's. -/
theorem removeF_sublist {α : Type} : ∀ (fuel : Nat),
    (∀ (g : Graph α) (n : GNode α),
      List.Sublist (removeNodeF fuel g n).1.nodes g.nodes ∧
      List.Sublist (removeNodeF fuel g n).1.edges g.edges) ∧
    (∀ (g : Graph α) (e : Edge),
      List.Sublist (removeEdgeF fuel g e).1.nodes g.nodes ∧
      List.Sublist (removeEdgeF fuel g e).1.edges g.edges) := by
  intro fuel
  induction fuel with
  | zero =>
    exact ⟨fun g n => ⟨List.Sublist.refl _, List.Sublist.refl _⟩,
      fun g e => ⟨List.Sublist.refl _, List.Sublist.refl _⟩⟩
  | succ fuel ih =>
    constructor
    · intro g n
      simp only [removeNodeF]
      obtain ⟨h1, h2⟩ := removeNodeLoop_sublist
        (fun g' e => removeEdgeF fuel g' e) (fun g' e => ih.2 g' e) _ _ n.id _
      exact ⟨h1.trans (List.filter_sublist g.nodes), h2⟩
    · intro g e
      simp only [removeEdgeF]
      obtain ⟨h1, h2⟩ := removeEdgeLoop_sublist
        (fun g' n => removeNodeF fuel g' n) (fun g' n => ih.1 g' n) _ _ e _
      exact ⟨h1, h2.trans (List.erase_sublist e g.edges)⟩

/-- Running the `removeNode` edge loop removes every edge touching the node:
any touching edge still in the graph is accounted for (with multiplicity) in
the unprocessed snapshot, and each processed occurrence is deleted, provided
the fuel dominates the graph size. -/
theorem removeNodeLoop_no_touch {α : Type} (fuel : Nat) :
    ∀ (snap : List Edge) (g : Graph α) (nid : NodeId) (removed : Graph α),
      g.nodes.length + g.edges.length ≤ fuel →
      (∀ e : Edge, (e.fr = nid ∨ e.toN = nid) →
        g.edges.count e ≤ snap.count e) →
      ∀ e : Edge, (e.fr = nid ∨ e.toN = nid) →
        e ∉ (removeNodeLoop (fun g' e' => removeEdgeF fuel g' e')
              g nid snap removed).1.edges := by
  intro snap
  induction snap with
  | nil =>
    intro g nid removed hsize hcount e htouch
    simp only [removeNodeLoop]
    have h0 : g.edges.count e = 0 :=
      Nat.le_zero.mp (by simpa using hcount e htouch)
    exact List.count_eq_zero.mp h0
  | cons e0 rest ih =>
    intro g nid removed hsize hcount e htouch
    by_cases hc : e0 ∈ g.edges ∧ (e0.fr = nid ∨ e0.toN = nid)
    · obtain ⟨hmem, htouch0⟩ := hc
      have hlen : 1 ≤ g.edges.length := List.length_pos_of_mem hmem
      obtain ⟨f', rfl⟩ : ∃ f', fuel = f' + 1 := ⟨fuel - 1, by omega⟩
      simp only [removeNodeLoop]
      rw [if_pos (show e0 ∈ g.edges ∧ (e0.fr = nid ∨ e0.toN = nid) from
        ⟨hmem, htouch0⟩)]
      have hsubE : List.Sublist (removeEdgeF (f' + 1) g e0).1.edges
          (g.edges.erase e0) := by
        simp only [removeEdgeF]
        exact (removeEdgeLoop_sublist (fun g' n => removeNodeF f' g' n)
          (fun g' n => (removeF_sublist f').1 g' n) _ _ _ _).2
      have hsubN : List.Sublist (removeEdgeF (f' + 1) g e0).1.nodes g.nodes :=
        ((removeF_sublist (f' + 1)).2 g e0).1
      apply ih (removeEdgeF (f' + 1) g e0).1 nid _ _ _ e htouch
      · have h1 := hsubN.length_le
        have h2 := hsubE.length_le
        have h3 : (g.edges.erase e0).length = g.edges.length - 1 :=
          List.length_erase_of_mem hmem
        omega
      · intro ee htee
        have hge := hsubE.count_le ee
        by_cases hee : ee = e0
        · subst hee
          have h4 : (g.edges.erase ee).count ee = g.edges.count ee - 1 := by
            rw [List.count_erase_self]
          have h5 := hcount ee htee
          have h6 : (ee :: rest).count ee = rest.count ee + 1 := by
            simp
          have h7 : 1 ≤ g.edges.count ee := List.count_pos_iff.mpr hmem
          omega
        · have h4 : (g.edges.erase e0).count ee = g.edges.count ee := by
            rw [List.count_erase_of_ne hee]
          have h5 := hcount ee htee
          have h6 : (e0 :: rest).count ee = rest.count ee := by
            rw [List.count_cons_of_ne hee]
          omega
    · simp only [removeNodeLoop, if_neg hc]
      apply ih g nid removed hsize _ e htouch
      intro ee htee
      by_cases hee : ee = e0
      · subst hee
        by_cases hm : ee ∈ g.edges
        · exact absurd ⟨hm, htee⟩ hc
        · simp [List.count_eq_zero.mpr hm]
      · have h6 : (e0 :: rest).count ee = rest.count ee := by
          rw [List.count_cons_of_ne hee]
        have h5 := hcount ee htee
        omega

theorem mapGet_eq_none_of_forall {α : Type} {m : List (NodeId × GNode α)}
    {k : NodeId} (h : ∀ p ∈ m, p.1 ≠ k) : mapGet m k = none := by
  simp only [mapGet, Option.map_eq_none']
  exact List.find?_eq_none.mpr (by simpa using h)

theorem forall_of_mapGet_eq_none {α : Type} {m : List (NodeId × GNode α)}
    {k : NodeId} (h : mapGet m k = none) : ∀ p ∈ m, p.1 ≠ k := by
  simp only [mapGet, Option.map_eq_none'] at h
  simpa using List.find?_eq_none.mp h

theorem mem_mapDelete_ne {α : Type} {m : List (NodeId × GNode α)}
    {k : NodeId} {p : NodeId × GNode α} (h : p ∈ mapDelete m k) : p.1 ≠ k := by
  have := List.of_mem_filter h
  simpa using this

/-- After `removeNode(n)`, no edge of the resulting graph touches `n.id`. -/
theorem removeNode_no_touch {α : Type} (g : Graph α) (n : GNode α) :
    ∀ e : Edge, (e.fr = n.id ∨ e.toN = n.id) →
      e ∉ (g.removeNode n).1.edges := by
  intro e htouch
  unfold Graph.removeNode graphFuel
  simp only [removeNodeF]
  apply removeNodeLoop_no_touch (g.nodes.length + g.edges.length) _ _ n.id _ _
    _ e htouch
  · have : (mapDelete g.nodes n.id).length ≤ g.nodes.length :=
      (List.filter_sublist g.nodes).length_le
    simpa using this
  · intro ee _
    exact Nat.le_refl _

/-- After `removeNode(n)`, the key `n.id` is gone from the node map. -/
theorem removeNode_key_gone {α : Type} (g : Graph α) (n : GNode α) :
    mapGet (g.removeNode n).1.nodes n.id = none := by
  have hsub : List.Sublist (g.removeNode n).1.nodes
      (mapDelete g.nodes n.id) := by
    unfold Graph.removeNode graphFuel
    simp only [removeNodeF]
    exact (removeNodeLoop_sublist _
      (fun g' e => (removeF_sublist (g.nodes.length + g.edges.length)).2 g' e)
      _ _ _ _).1
  exact mapGet_eq_none_of_forall
    (fun p hp => mem_mapDelete_ne (hsub.mem hp))

theorem removeNodeLoop_skip {α : Type}
    (step : Graph α → Edge → Graph α × Graph α) :
    ∀ (snap : List Edge) (g : Graph α) (nid : NodeId) (removed : Graph α),
      (∀ e ∈ snap, ¬ (e.fr = nid ∨ e.toN = nid)) →
      removeNodeLoop step g nid snap removed = (g, removed) := by
  intro snap
  induction snap with
  | nil => intro g nid removed _; rfl
  | cons e rest ih =>
    intro g nid removed h
    have hc : ¬ (e ∈ g.edges ∧ (e.fr = nid ∨ e.toN = nid)) :=
      fun hc => h e (List.mem_cons_self e rest) hc.2
    simp only [removeNodeLoop, if_neg hc]
    exact ih g nid removed (fun ee hee => h ee (List.mem_cons_of_mem e hee))

/-- C4 amended: for a node `n` present in `g`, calling `removeNode(n)` and
then `removeNode(n)` again is safe — the second call leaves the graph
unchanged — and the second call's removed-set contains no edges and no node
other than `n` itself: `removeNode` unconditionally records its argument
node, so the second removed-set is exactly the one-node graph `{n}`, not the
empty graph. -/
theorem removeNode_idempotent {α : Type} (g : Graph α) (n : GNode α)
    (hpresent : (mapGet g.nodes n.id).isSome = true) :
    ((g.removeNode n).1.removeNode n).1 = (g.removeNode n).1 ∧
    ((g.removeNode n).1.removeNode n).2 =
      ⟨[(n.id, n)], [], none⟩ := by
  have hkey : mapGet (g.removeNode n).1.nodes n.id = none :=
    removeNode_key_gone g n
  have htouch : ∀ e ∈ (g.removeNode n).1.edges,
      ¬ (e.fr = n.id ∨ e.toN = n.id) :=
    fun e he h => removeNode_no_touch g n e h he
  have hdel : mapDelete (g.removeNode n).1.nodes n.id =
      (g.removeNode n).1.nodes :=
    List.filter_eq_self.mpr
      (fun p hp => by simpa using forall_of_mapGet_eq_none hkey p hp)
  have hcall : (g.removeNode n).1.removeNode n =
      ((g.removeNode n).1, Graph.empty.addNode n) := by
    generalize hR : (g.removeNode n).1 = R at hdel htouch
    show Graph.removeNode R n = (R, Graph.empty.addNode n)
    unfold Graph.removeNode graphFuel
    simp only [removeNodeF, hdel]
    exact removeNodeLoop_skip _ _ _ _ _ htouch
  rw [hcall]
  constructor
  · rfl
  · show Graph.empty.addNode n = _
    simp [Graph.empty, Graph.addNode, mapSet]

/-- Witness for C4 at the chain graph: `A` is present, the second call
leaves the graph unchanged and returns the one-node removed-set `{A}`. -/
theorem removeNode_idempotent_witness :
    ((exChain.removeNode exA).1.removeNode exA).1 = (exChain.removeNode exA).1 ∧
    ((exChain.removeNode exA).1.removeNode exA).2 =
      ⟨[("A", exA)], [], none⟩ :=
  removeNode_idempotent exChain exA (by decide)

theorem mapGet_updValue_ne {α : Type} (m : List (NodeId × GNode α))
    (kx : NodeId) (v' : α) (k : NodeId) (h : k ≠ kx) :
    mapGet (m.map (updValue kx v')) k = mapGet m k := by
  unfold updValue
  induction m with
  | nil => rfl
  | cons q rest ih =>
    by_cases hq : q.1 = kx
    · have h2 : ¬ q.1 = k := by rw [hq]; exact fun hh => h hh.symm
      simp only [List.map_cons, if_pos hq, mapGet_cons, if_neg h2]
      simpa [mapGet_cons, if_neg h2] using ih
    · simp only [List.map_cons, if_neg hq, mapGet_cons]
      by_cases hq' : q.1 = k <;> simp [hq', ih]

theorem mapGet_updValue_self {α : Type} (m : List (NodeId × GNode α))
    (kx : NodeId) (v' : α) :
    mapGet (m.map (updValue kx v')) kx =
      (mapGet m kx).map (fun w => (⟨w.id, v'⟩ : GNode α)) := by
  unfold updValue
  induction m with
  | nil => rfl
  | cons q rest ih =>
    by_cases hq : q.1 = kx
    · simp only [List.map_cons, if_pos hq, mapGet_cons, if_pos hq]
      simp [mapGet_cons, hq]
    · simp only [List.map_cons, if_neg hq, mapGet_cons, if_neg hq]
      exact ih

theorem mapSet_of_absent {α : Type} (m : List (NodeId × GNode α))
    (k : NodeId) (v : GNode α) (h : mapGet m k = none) :
    mapSet m k v = m ++ [(k, v)] := by
  have hall := forall_of_mapGet_eq_none h
  unfold mapSet
  rw [if_neg]
  simp only [List.any_eq_true, decide_eq_true_eq, not_exists]
  intro p hp
  exact hall p hp.1 hp.2

theorem mapGet_decomp {α : Type} (m : List (NodeId × GNode α)) (k : NodeId)
    (v : GNode α) (h : mapGet m k = some v) :
    ∃ pre post, m = pre ++ (k, v) :: post ∧ ∀ p ∈ pre, p.1 ≠ k := by
  induction m with
  | nil => simp [mapGet] at h
  | cons q rest ih =>
    rw [mapGet_cons] at h
    by_cases hq : q.1 = k
    · rw [if_pos hq] at h
      obtain rfl := Option.some_injective _ h
      obtain ⟨k1, v1⟩ := q
      obtain rfl : k1 = k := hq
      exact ⟨[], rest, rfl, by simp⟩
    · rw [if_neg hq] at h
      obtain ⟨pre, post, heq, hpre⟩ := ih h
      exact ⟨q :: pre, post, by simp [heq], by
        intro p hp
        rcases List.mem_cons.mp hp with rfl | hp'
        · exact hq
        · exact hpre p hp'⟩

theorem removeEdgeLoop_skip_prefix {α : Type}
    (step : Graph α → GNode α → Graph α × Graph α) :
    ∀ (snapA rest : List (NodeId × GNode α)) (g : Graph α) (edge : Edge)
      (removed : Graph α), (∀ p ∈ snapA, edge.toN ≠ p.1) →
      removeEdgeLoop step g edge (snapA ++ rest) removed =
        removeEdgeLoop step g edge rest removed := by
  intro snapA
  induction snapA with
  | nil => intro rest g edge removed _; rfl
  | cons p snapA ih =>
    intro rest g edge removed h
    obtain ⟨id, node⟩ := p
    have hne : edge.toN ≠ id := h (id, node) (List.mem_cons_self _ _)
    have hc : ¬ ((mapGet g.nodes id).isSome ∧ edge.toN = id ∧
        g.isOrphanedNode node) := fun hc => hne hc.2.1
    rw [List.cons_append]
    simp only [removeEdgeLoop, if_neg hc]
    exact ih rest g edge removed (fun q hq => h q (List.mem_cons_of_mem _ hq))

theorem removeEdgeLoop_skip_all {α : Type}
    (step : Graph α → GNode α → Graph α × Graph α)
    (snap : List (NodeId × GNode α)) (g : Graph α) (edge : Edge)
    (removed : Graph α) (h : ∀ p ∈ snap, edge.toN ≠ p.1) :
    removeEdgeLoop step g edge snap removed = (g, removed) := by
  have := removeEdgeLoop_skip_prefix step snap [] g edge removed h
  simpa using this

theorem replaceStep_existing {α : Type} (fromNode toNode : GNode α)
    (g : Graph α) (ed : List Edge) (added : Graph α) (Xold : GNode α)
    (hget : g.getNode toNode.id = some Xold)
    (hhas : g.hasEdge ⟨fromNode.id, toNode.id⟩ = true) :
    replaceStep fromNode (g, ed, added) toNode =
      ({ g with nodes := g.nodes.map (updValue toNode.id toNode.value) },
       ed.filter (fun e => e.toN ≠ toNode.id), added) := by
  have hhas' : Graph.hasEdge
      ({ g with nodes := g.nodes.map (updValue toNode.id toNode.value) })
      ⟨fromNode.id, toNode.id⟩ = true := hhas
  simp only [replaceStep, hget, hhas']
  simp

theorem replaceStep_new {α : Type} (fromNode toNode : GNode α)
    (g : Graph α) (ed : List Edge) (added : Graph α)
    (hget : g.getNode toNode.id = none)
    (hhas : g.hasEdge ⟨fromNode.id, toNode.id⟩ = false) :
    replaceStep fromNode (g, ed, added) toNode =
      ((g.addNode toNode).addEdge ⟨fromNode.id, toNode.id⟩,
       ed.filter (fun e => e.toN ≠ toNode.id),
       (added.addNode toNode).addEdge ⟨fromNode.id, toNode.id⟩) := by
  have hhas' : (g.addNode toNode).hasEdge ⟨fromNode.id, toNode.id⟩ = false :=
    hhas
  simp only [replaceStep, hget, hhas']
  simp

/-- Phase 1 of `replaceNodesConnectedTo(root, [Xn, Z])` under the C1 scenario
hypotheses: `Xn`'s payload is updated in place, `Z` and the edge `(root, Z)`
are added (the whole `added` delta), the surviving edge `(root, Xn)` is not
re-added, and the only stale edge is `(root, Yid)`, which phase 2 hands to
`removeEdge` on the updated graph `g1`. -/
theorem replace_phase1 {α : Type} (g g1 : Graph α) (root Xn Z : GNode α)
    (Xold : GNode α) (Yid : NodeId)
    (hX : mapGet g.nodes Xn.id = some Xold)
    (hZ : mapGet g.nodes Z.id = none)
    (hbefore : g.edges.filter (fun e => e.fr = root.id) =
        [⟨root.id, Xn.id⟩, ⟨root.id, Yid⟩] ∨
      g.edges.filter (fun e => e.fr = root.id) =
        [⟨root.id, Yid⟩, ⟨root.id, Xn.id⟩])
    (hXY : Xn.id ≠ Yid) (hZX : Z.id ≠ Xn.id) (hZY : Z.id ≠ Yid)
    (hg1 : g1 = ⟨(g.nodes.map (updValue Xn.id Xn.value)) ++ [(Z.id, Z)],
      g.edges ++ [⟨root.id, Z.id⟩], g.rootNodeId⟩) :
    g.replaceNodesConnectedTo root [Xn, Z] =
      ((g1.removeEdge ⟨root.id, Yid⟩).1,
       Graph.empty.merge (g1.removeEdge ⟨root.id, Yid⟩).2,
       ⟨[(Z.id, Z)], [⟨root.id, Z.id⟩], none⟩) := by
  have hmemX : (⟨root.id, Xn.id⟩ : Edge) ∈ g.edges := by
    rcases hbefore with hb | hb
    · exact (List.filter_sublist g.edges).mem (hb ▸ List.mem_cons_self _ _)
    · exact (List.filter_sublist g.edges).mem
        (hb ▸ List.mem_cons_of_mem _ (List.mem_cons_self _ _))
  have htargets : ∀ e ∈ g.edges, e.fr = root.id → e.toN ≠ Z.id := by
    intro e he hfr htn
    have hmem : e ∈ g.edges.filter (fun e => e.fr = root.id) :=
      List.mem_filter.mpr ⟨he, by simp [hfr]⟩
    rcases hbefore with hb | hb <;> rw [hb] at hmem <;>
      simp only [List.mem_cons, List.not_mem_nil, or_false] at hmem <;>
      rcases hmem with rfl | rfl <;> simp at htn <;>
      first
        | exact hZX htn.symm
        | exact hZY htn.symm
  have hstep1 : replaceStep root
      (g, g.edges.filter (fun e => e.fr = root.id), Graph.empty) Xn =
      ({ g with nodes := g.nodes.map (updValue Xn.id Xn.value) },
       (g.edges.filter (fun e => e.fr = root.id)).filter
         (fun e => e.toN ≠ Xn.id), Graph.empty) := by
    apply replaceStep_existing root Xn g _ _ Xold hX
    simp only [Graph.hasEdge, List.any_eq_true]
    exact ⟨⟨root.id, Xn.id⟩, hmemX, by simp⟩
  have hgetZ : Graph.getNode
      ({ g with nodes := g.nodes.map (updValue Xn.id Xn.value) }) Z.id =
      none := by
    show mapGet _ Z.id = none
    rw [mapGet_updValue_ne _ _ _ _ hZX]
    exact hZ
  have hstep2 : replaceStep root
      ({ g with nodes := g.nodes.map (updValue Xn.id Xn.value) },
       (g.edges.filter (fun e => e.fr = root.id)).filter
         (fun e => e.toN ≠ Xn.id), Graph.empty) Z =
      ((({ g with nodes := g.nodes.map (updValue Xn.id Xn.value) } :
          Graph α).addNode Z).addEdge ⟨root.id, Z.id⟩,
       ((g.edges.filter (fun e => e.fr = root.id)).filter
         (fun e => e.toN ≠ Xn.id)).filter (fun e => e.toN ≠ Z.id),
       (Graph.empty.addNode Z).addEdge ⟨root.id, Z.id⟩) := by
    apply replaceStep_new root Z _ _ _ hgetZ
    simp only [Graph.hasEdge, List.any_eq_false]
    intro e he
    simp only [decide_eq_true_eq, not_and]
    intro hfr
    exact fun htn => htargets e he hfr.symm htn.symm
  have hfilters : ((g.edges.filter (fun e => e.fr = root.id)).filter
      (fun e => e.toN ≠ Xn.id)).filter (fun e => e.toN ≠ Z.id) =
      [⟨root.id, Yid⟩] := by
    rcases hbefore with hb | hb <;> rw [hb] <;>
      simp [List.filter_cons, Ne.symm hXY, Ne.symm hZY]
  have hgraphs : (({ g with nodes := g.nodes.map (updValue Xn.id Xn.value) } :
      Graph α).addNode Z).addEdge ⟨root.id, Z.id⟩ = g1 := by
    rw [hg1]
    simp only [Graph.addNode, Graph.addEdge]
    congr 1
    exact mapSet_of_absent _ _ _ hgetZ
  have haddedZ : (Graph.empty.addNode Z).addEdge ⟨root.id, Z.id⟩ =
      (⟨[(Z.id, Z)], [⟨root.id, Z.id⟩], none⟩ : Graph α) := by
    simp [Graph.empty, Graph.addNode, Graph.addEdge, mapSet]
  simp only [Graph.replaceNodesConnectedTo, List.foldl_cons, List.foldl_nil,
    hstep1, hstep2, hfilters, hgraphs, haddedZ, removalStep]

theorem removeEdgeLoop_protected {α : Type} (r k : NodeId)
    (step : Graph α → GNode α → Graph α × Graph α)
    (hstep : ∀ g n, ProtectedG r k g → n.id ≠ r → n.id ≠ k →
      ProtectedG r k (step g n).1) :
    ∀ (snap : List (NodeId × GNode α)) (g : Graph α) (edge : Edge)
      (removed : Graph α), ProtectedG r k g → edge.toN ≠ r →
      (∀ p ∈ snap, p.2.id = p.1) →
      ProtectedG r k (removeEdgeLoop step g edge snap removed).1 := by
  intro snap
  induction snap with
  | nil => intro g edge removed hprot hr hsnap; exact hprot
  | cons p rest ih =>
    intro g edge removed hprot hr hsnap
    obtain ⟨id, node⟩ := p
    by_cases hc : (mapGet g.nodes id).isSome ∧ edge.toN = id ∧
        g.isOrphanedNode node
    · simp only [removeEdgeLoop, if_pos hc]
      obtain ⟨hsome, htoN, horph⟩ := hc
      have hid : node.id = id := hsnap (id, node) (List.mem_cons_self _ _)
      have hnoin : ∀ e ∈ g.edges, e.toN ≠ node.id := by
        intro e he
        have := horph
        simp only [Graph.isOrphanedNode, List.any_eq_true,
          decide_eq_true_eq] at this
        exact fun h0 => this ⟨e, he, h0⟩
      have hnr : node.id ≠ r := by rw [hid, ← htoN]; exact hr
      have hnk : node.id ≠ k :=
        fun h0 => hnoin ⟨r, k⟩ hprot.1 (by simpa using h0.symm)
      exact ih (step g node).1 edge (removed.merge (step g node).2)
        (hstep g node hprot hnr hnk) hr
        (fun q hq => hsnap q (List.mem_cons_of_mem _ hq))
    · simp only [removeEdgeLoop, if_neg hc]
      exact ih g edge removed hprot hr
        (fun q hq => hsnap q (List.mem_cons_of_mem _ hq))

theorem removeNodeLoop_protected {α : Type} (r k : NodeId)
    (step : Graph α → Edge → Graph α × Graph α)
    (hstep : ∀ g e, ProtectedG r k g → e ≠ (⟨r, k⟩ : Edge) → e.toN ≠ r →
      ProtectedG r k (step g e).1) :
    ∀ (snap : List Edge) (g : Graph α) (nid : NodeId) (removed : Graph α),
      ProtectedG r k g → nid ≠ r → nid ≠ k →
      ProtectedG r k (removeNodeLoop step g nid snap removed).1 := by
  intro snap
  induction snap with
  | nil => intro g nid removed hprot _ _; exact hprot
  | cons e rest ih =>
    intro g nid removed hprot hnr hnk
    by_cases hc : e ∈ g.edges ∧ (e.fr = nid ∨ e.toN = nid)
    · simp only [removeNodeLoop, if_pos hc]
      have her : e.toN ≠ r := hprot.2.2.1 e hc.1
      have hene : e ≠ (⟨r, k⟩ : Edge) := by
        intro h0
        subst h0
        rcases hc.2 with h1 | h1
        · exact hnr h1.symm
        · exact hnk h1.symm
      exact ih (step g e).1 nid (removed.merge (step g e).2)
        (hstep g e hprot hene her) hnr hnk
    · simp only [removeNodeLoop, if_neg hc]
      exact ih g nid removed hprot hnr hnk

/-- The protection invariant is preserved by the whole removal cascade at any
fuel: a node `k` fed by a permanent edge `(r, k)` (with `r` never targeted)
is never pruned. -/
theorem removeF_protected {α : Type} (r k : NodeId) : ∀ (fuel : Nat),
    (∀ (g : Graph α) (n : GNode α), ProtectedG r k g → n.id ≠ r →
      n.id ≠ k → ProtectedG r k (removeNodeF fuel g n).1) ∧
    (∀ (g : Graph α) (e : Edge), ProtectedG r k g → e ≠ (⟨r, k⟩ : Edge) →
      e.toN ≠ r → ProtectedG r k (removeEdgeF fuel g e).1) := by
  intro fuel
  induction fuel with
  | zero => exact ⟨fun g n h _ _ => h, fun g e h _ _ => h⟩
  | succ fuel ih =>
    constructor
    · intro g n hprot hnr hnk
      simp only [removeNodeF]
      obtain ⟨h1, h2, h3, h4⟩ := hprot
      have hprot1 : ProtectedG r k
          ({ nodes := mapDelete g.nodes n.id, edges := g.edges,
             rootNodeId := g.rootNodeId } : Graph α) := by
        unfold ProtectedG
        refine ⟨h1, ?_, h3, ?_⟩
        · simp only [List.mem_map] at h2 ⊢
          obtain ⟨p, hp, hpk⟩ := h2
          refine ⟨p, List.mem_filter.mpr ⟨hp, ?_⟩, hpk⟩
          simp [hpk, Ne.symm hnk]
        · intro p hp
          exact h4 p (List.mem_filter.mp hp).1
      exact removeNodeLoop_protected r k _ (fun g' e => ih.2 g' e) _ _ n.id _
        hprot1 hnr hnk
    · intro g e hprot hene her
      simp only [removeEdgeF]
      obtain ⟨h1, h2, h3, h4⟩ := hprot
      have hprot1 : ProtectedG r k
          ({ nodes := g.nodes, edges := g.edges.erase e,
             rootNodeId := g.rootNodeId } : Graph α) := by
        unfold ProtectedG
        refine ⟨?_, h2, ?_, h4⟩
        · exact (List.mem_erase_of_ne (fun h0 => hene h0.symm)).mpr h1
        · intro e' he'
          exact h3 e' ((List.erase_sublist e g.edges).mem he')
      exact removeEdgeLoop_protected r k _ (fun g' n => ih.1 g' n) _ _ e _
        hprot1 her (fun p hp => h4 p hp)

theorem wellKeyed_mapSet {α : Type} {m : List (NodeId × GNode α)}
    (hm : ∀ p ∈ m, p.2.id = p.1) (v : GNode α) :
    ∀ p ∈ mapSet m v.id v, p.2.id = p.1 := by
  intro p hp
  unfold mapSet at hp
  split at hp
  · obtain ⟨q, hq, hqe⟩ := List.mem_map.mp hp
    by_cases hqk : q.1 = v.id
    · rw [if_pos hqk] at hqe
      rw [← hqe]
    · rw [if_neg hqk] at hqe
      rw [← hqe]
      exact hm q hq
  · rcases List.mem_append.mp hp with h1 | h1
    · exact hm p h1
    · simp only [List.mem_singleton] at h1
      rw [h1]

theorem merge_wellKeyed {α : Type} {b : Graph α} (o : Graph α)
    (hb : ∀ p ∈ b.nodes, p.2.id = p.1) :
    ∀ p ∈ (b.merge o).nodes, p.2.id = p.1 := by
  rw [merge_nodes]
  generalize b.nodes = base at hb ⊢
  induction o.nodes generalizing base with
  | nil => exact hb
  | cons q rest ih =>
    rw [List.foldl_cons]
    exact ih _ (wellKeyed_mapSet hb q.2)

theorem removeEdgeLoop_acc_wellKeyed {α : Type}
    (step : Graph α → GNode α → Graph α × Graph α) :
    ∀ (snap : List (NodeId × GNode α)) (g : Graph α) (edge : Edge)
      (removed : Graph α), (∀ p ∈ removed.nodes, p.2.id = p.1) →
      ∀ p ∈ (removeEdgeLoop step g edge snap removed).2.nodes, p.2.id = p.1 := by
  intro snap
  induction snap with
  | nil => intro g edge removed h; exact h
  | cons q rest ih =>
    intro g edge removed h
    obtain ⟨id, node⟩ := q
    by_cases hc : (mapGet g.nodes id).isSome ∧ edge.toN = id ∧
        g.isOrphanedNode node
    · simp only [removeEdgeLoop, if_pos hc]
      exact ih _ _ _ (merge_wellKeyed _ h)
    · simp only [removeEdgeLoop, if_neg hc]
      exact ih _ _ _ h

theorem removeNodeLoop_acc_wellKeyed {α : Type}
    (step : Graph α → Edge → Graph α × Graph α) :
    ∀ (snap : List Edge) (g : Graph α) (nid : NodeId) (removed : Graph α),
      (∀ p ∈ removed.nodes, p.2.id = p.1) →
      ∀ p ∈ (removeNodeLoop step g nid snap removed).2.nodes, p.2.id = p.1 := by
  intro snap
  induction snap with
  | nil => intro g nid removed h; exact h
  | cons e rest ih =>
    intro g nid removed h
    by_cases hc : e ∈ g.edges ∧ (e.fr = nid ∨ e.toN = nid)
    · simp only [removeNodeLoop, if_pos hc]
      exact ih _ _ _ (merge_wellKeyed _ h)
    · simp only [removeNodeLoop, if_neg hc]
      exact ih _ _ _ h

/-- Removed-subgraphs are well-keyed: every node entry is keyed by its own
node's id (they are built exclusively through `addNode`). -/
theorem removedF_wellKeyed {α : Type} (fuel : Nat) :
    (∀ (g : Graph α) (n : GNode α),
      ∀ p ∈ (removeNodeF fuel g n).2.nodes, p.2.id = p.1) ∧
    (∀ (g : Graph α) (e : Edge),
      ∀ p ∈ (removeEdgeF fuel g e).2.nodes, p.2.id = p.1) := by
  cases fuel with
  | zero =>
    constructor <;> intro g x p hp <;>
      simp [removeNodeF, removeEdgeF, Graph.empty] at hp
  | succ fuel =>
    constructor
    · intro g n
      simp only [removeNodeF]
      apply removeNodeLoop_acc_wellKeyed
      intro p hp
      simp only [Graph.addNode, Graph.empty, mapSet, List.any_nil] at hp
      simp at hp
      rw [hp]
    · intro g e
      simp only [removeEdgeF]
      apply removeEdgeLoop_acc_wellKeyed
      intro p hp
      simp [Graph.addEdge, Graph.empty] at hp

theorem keys_mapSet_of_mem {α : Type} {m : List (NodeId × GNode α)}
    {k' : NodeId} (h : k' ∈ m.map Prod.fst) (k : NodeId) (v : GNode α) :
    k' ∈ (mapSet m k v).map Prod.fst := by
  unfold mapSet
  split
  · obtain ⟨p, hp, hpk⟩ := List.mem_map.mp h
    apply List.mem_map.mpr
    by_cases hk : p.1 = k
    · exact ⟨(k, v), List.mem_map.mpr ⟨p, hp, by rw [if_pos hk]⟩,
        by simpa [← hk] using hpk⟩
    · exact ⟨p, List.mem_map.mpr ⟨p, hp, by rw [if_neg hk]⟩, hpk⟩
  · simp only [List.map_append, List.mem_append]
    exact Or.inl h

theorem keys_mapSet_self {α : Type} (m : List (NodeId × GNode α))
    (k : NodeId) (v : GNode α) : k ∈ (mapSet m k v).map Prod.fst := by
  unfold mapSet
  split
  · rename_i hany
    simp only [List.any_eq_true, decide_eq_true_eq] at hany
    obtain ⟨p, hp, hpk⟩ := hany
    exact List.mem_map.mpr ⟨(k, v), List.mem_map.mpr ⟨p, hp, by rw [if_pos hpk]⟩,
      rfl⟩
  · simp

theorem foldl_mapSet_keys_mono {α : Type} (l : List (NodeId × GNode α)) :
    ∀ (acc : List (NodeId × GNode α)) (k' : NodeId),
      k' ∈ acc.map Prod.fst →
      k' ∈ (l.foldl (fun acc p => mapSet acc p.2.id p.2) acc).map Prod.fst := by
  induction l with
  | nil => intro acc k' h; exact h
  | cons q rest ih =>
    intro acc k' h
    rw [List.foldl_cons]
    exact ih _ _ (keys_mapSet_of_mem h _ _)

theorem merge_keys_base {α : Type} (b o : Graph α) (k' : NodeId)
    (h : k' ∈ b.nodes.map Prod.fst) :
    k' ∈ (b.merge o).nodes.map Prod.fst := by
  rw [merge_nodes]
  exact foldl_mapSet_keys_mono _ _ _ h

theorem foldl_mapSet_keys_other {α : Type} (l : List (NodeId × GNode α)) :
    ∀ (base : List (NodeId × GNode α)) (k' : NodeId),
      (∀ p ∈ l, p.2.id = p.1) → k' ∈ l.map Prod.fst →
      k' ∈ (l.foldl (fun acc p => mapSet acc p.2.id p.2) base).map
        Prod.fst := by
  induction l with
  | nil => intro base k' _ h; simp at h
  | cons q rest ih =>
    intro base k' hwk h
    rw [List.foldl_cons]
    rcases List.mem_map.mp h with ⟨p, hp, hpk⟩
    rcases List.mem_cons.mp hp with rfl | hp'
    · have hq : p.2.id = k' := by rw [hwk p (List.mem_cons_self _ _), hpk]
      apply foldl_mapSet_keys_mono
      rw [← hq]
      exact keys_mapSet_self _ _ _
    · exact ih _ _ (fun p hp => hwk p (List.mem_cons_of_mem _ hp))
        (List.mem_map.mpr ⟨p, hp', hpk⟩)

theorem merge_keys_other {α : Type} (b o : Graph α)
    (hwk : ∀ p ∈ o.nodes, p.2.id = p.1) (k' : NodeId)
    (h : k' ∈ o.nodes.map Prod.fst) :
    k' ∈ (b.merge o).nodes.map Prod.fst := by
  rw [merge_nodes]
  exact foldl_mapSet_keys_other o.nodes b.nodes k' hwk h

theorem removeEdgeLoop_acc_keys {α : Type}
    (step : Graph α → GNode α → Graph α × Graph α) :
    ∀ (snap : List (NodeId × GNode α)) (g : Graph α) (edge : Edge)
      (removed : Graph α) (k' : NodeId), k' ∈ removed.nodes.map Prod.fst →
      k' ∈ (removeEdgeLoop step g edge snap removed).2.nodes.map Prod.fst := by
  intro snap
  induction snap with
  | nil => intro g edge removed k' h; exact h
  | cons q rest ih =>
    intro g edge removed k' h
    obtain ⟨id, node⟩ := q
    by_cases hc : (mapGet g.nodes id).isSome ∧ edge.toN = id ∧
        g.isOrphanedNode node
    · simp only [removeEdgeLoop, if_pos hc]
      exact ih _ _ _ _ (merge_keys_base _ _ _ h)
    · simp only [removeEdgeLoop, if_neg hc]
      exact ih _ _ _ _ h

theorem keys_mapSet_upper {α : Type} {m : List (NodeId × GNode α)}
    {k k' : NodeId} {v : GNode α}
    (h : k' ∈ (mapSet m k v).map Prod.fst) : k' ∈ m.map Prod.fst ∨ k' = k := by
  unfold mapSet at h
  split at h
  · obtain ⟨p, hp, hpk⟩ := List.mem_map.mp h
    obtain ⟨q, hq, hqe⟩ := List.mem_map.mp hp
    by_cases hk : q.1 = k
    · rw [if_pos hk] at hqe
      right
      rw [← hpk, ← hqe]
    · rw [if_neg hk] at hqe
      left
      exact List.mem_map.mpr ⟨q, hq, by rw [hqe, hpk]⟩
  · simp only [List.map_append, List.mem_append] at h
    rcases h with h | h
    · exact Or.inl h
    · simp at h
      exact Or.inr h

theorem merge_keys_upper {α : Type} (b o : Graph α) (k' : NodeId)
    (h : k' ∈ (b.merge o).nodes.map Prod.fst) :
    k' ∈ b.nodes.map Prod.fst ∨ k' ∈ o.nodes.map (fun p => p.2.id) := by
  rw [merge_nodes] at h
  have key : ∀ (l acc : List (NodeId × GNode α)),
      k' ∈ (l.foldl (fun acc p => mapSet acc p.2.id p.2) acc).map Prod.fst →
      k' ∈ acc.map Prod.fst ∨ k' ∈ l.map (fun p => p.2.id) := by
    intro l
    induction l with
    | nil => intro acc h; exact Or.inl h
    | cons q rest ih =>
      intro acc h
      rw [List.foldl_cons] at h
      rcases ih _ h with h1 | h1
      · rcases keys_mapSet_upper h1 with h2 | h2
        · exact Or.inl h2
        · exact Or.inr (by simp [h2])
      · exact Or.inr (List.mem_cons_of_mem _ h1)
  exact key o.nodes b.nodes h

theorem keys_iff_isSome {α : Type} (m : List (NodeId × GNode α))
    (k : NodeId) : k ∈ m.map Prod.fst ↔ (mapGet m k).isSome := by
  simp only [mapGet, Option.isSome_map']
  rw [List.find?_isSome]
  simp only [List.mem_map, decide_eq_true_eq]

theorem mem_of_mapGet {α : Type} {m : List (NodeId × GNode α)} {k : NodeId}
    {v : GNode α} (h : mapGet m k = some v) : (k, v) ∈ m := by
  simp only [mapGet] at h
  obtain ⟨p, hp, hpv⟩ := Option.map_eq_some'.mp h
  have hpk : p.1 = k := by simpa using List.find?_some hp
  have hpm := List.mem_of_find?_eq_some hp
  have : p = (k, v) := by
    obtain ⟨a, b⟩ := p
    simp at hpk hpv
    rw [hpk, hpv]
  rw [← this]
  exact hpm

theorem mapGet_of_mem_nodup {α : Type} {m : List (NodeId × GNode α)}
    {k : NodeId} {v : GNode α} (hnd : (m.map Prod.fst).Nodup)
    (h : (k, v) ∈ m) : mapGet m k = some v := by
  induction m with
  | nil => simp at h
  | cons q rest ih =>
    rcases List.mem_cons.mp h with rfl | h'
    · simp [mapGet_cons]
    · have hk : k ∈ rest.map Prod.fst := List.mem_map.mpr ⟨(k, v), h', rfl⟩
      have hq : q.1 ≠ k := by
        rw [List.map_cons] at hnd
        intro h0
        exact (List.nodup_cons.mp hnd).1 (h0 ▸ hk)
      rw [mapGet_cons, if_neg hq]
      exact ih (by rw [List.map_cons] at hnd; exact (List.nodup_cons.mp hnd).2) h'

theorem mapGet_sublist_unique {α : Type} {l' l : List (NodeId × GNode α)}
    {k : NodeId} (hsub : List.Sublist l' l) (hnd : (l.map Prod.fst).Nodup)
    (hk : k ∈ l'.map Prod.fst) : mapGet l' k = mapGet l k := by
  have h1 : (mapGet l' k).isSome := (keys_iff_isSome l' k).mp hk
  obtain ⟨v, hv⟩ := Option.isSome_iff_exists.mp h1
  rw [hv]
  exact (mapGet_of_mem_nodup hnd (hsub.mem (mem_of_mapGet hv))).symm

theorem keys_of_sublist {α : Type} {l' l : List (NodeId × GNode α)}
    (hsub : List.Sublist l' l) {k : NodeId} (h : k ∈ l'.map Prod.fst) :
    k ∈ l.map Prod.fst := by
  obtain ⟨p, hp, hpk⟩ := List.mem_map.mp h
  exact List.mem_map.mpr ⟨p, hsub.mem hp, hpk⟩

theorem removeEdgeLoop_disjoint {α : Type}
    (step : Graph α → GNode α → Graph α × Graph α)
    (hsub : ∀ g n, List.Sublist (step g n).1.nodes g.nodes ∧
      List.Sublist (step g n).1.edges g.edges)
    (hdis : ∀ g n kk, kk ∈ (step g n).1.nodes.map Prod.fst →
      kk ∉ (step g n).2.nodes.map Prod.fst)
    (hwkrem : ∀ g n, ∀ p ∈ (step g n).2.nodes, p.2.id = p.1) :
    ∀ (snap : List (NodeId × GNode α)) (g : Graph α) (edge : Edge)
      (removed : Graph α) (kk : NodeId),
      kk ∈ (removeEdgeLoop step g edge snap removed).1.nodes.map Prod.fst →
      kk ∉ removed.nodes.map Prod.fst →
      kk ∉ (removeEdgeLoop step g edge snap removed).2.nodes.map Prod.fst := by
  intro snap
  induction snap with
  | nil => intro g edge removed kk _ h; exact h
  | cons q rest ih =>
    intro g edge removed kk hk hrem
    obtain ⟨id, node⟩ := q
    by_cases hc : (mapGet g.nodes id).isSome ∧ edge.toN = id ∧
        g.isOrphanedNode node
    · simp only [removeEdgeLoop, if_pos hc] at hk ⊢
      have hk1 : kk ∈ (step g node).1.nodes.map Prod.fst :=
        keys_of_sublist (removeEdgeLoop_sublist step hsub rest _ edge _).1 hk
      have hk2 : kk ∉ (step g node).2.nodes.map Prod.fst := hdis g node kk hk1
      have hmerge : kk ∉ (removed.merge (step g node).2).nodes.map Prod.fst := by
        intro h0
        rcases merge_keys_upper _ _ _ h0 with h1 | h1
        · exact hrem h1
        · obtain ⟨p, hp, hpk⟩ := List.mem_map.mp h1
          exact hk2 (List.mem_map.mpr ⟨p, hp, by
            rw [← hpk]; exact (hwkrem g node p hp).symm⟩)
      exact ih _ _ _ _ hk hmerge
    · simp only [removeEdgeLoop, if_neg hc] at hk ⊢
      exact ih _ _ _ _ hk hrem

theorem removeNodeLoop_disjoint {α : Type}
    (step : Graph α → Edge → Graph α × Graph α)
    (hsub : ∀ g e, List.Sublist (step g e).1.nodes g.nodes ∧
      List.Sublist (step g e).1.edges g.edges)
    (hdis : ∀ g e kk, kk ∈ (step g e).1.nodes.map Prod.fst →
      kk ∉ (step g e).2.nodes.map Prod.fst)
    (hwkrem : ∀ g e, ∀ p ∈ (step g e).2.nodes, p.2.id = p.1) :
    ∀ (snap : List Edge) (g : Graph α) (nid : NodeId) (removed : Graph α)
      (kk : NodeId),
      kk ∈ (removeNodeLoop step g nid snap removed).1.nodes.map Prod.fst →
      kk ∉ removed.nodes.map Prod.fst →
      kk ∉ (removeNodeLoop step g nid snap removed).2.nodes.map Prod.fst := by
  intro snap
  induction snap with
  | nil => intro g nid removed kk _ h; exact h
  | cons e rest ih =>
    intro g nid removed kk hk hrem
    by_cases hc : e ∈ g.edges ∧ (e.fr = nid ∨ e.toN = nid)
    · simp only [removeNodeLoop, if_pos hc] at hk ⊢
      have hk1 : kk ∈ (step g e).1.nodes.map Prod.fst :=
        keys_of_sublist (removeNodeLoop_sublist step hsub rest _ nid _).1 hk
      have hk2 : kk ∉ (step g e).2.nodes.map Prod.fst := hdis g e kk hk1
      have hmerge : kk ∉ (removed.merge (step g e).2).nodes.map Prod.fst := by
        intro h0
        rcases merge_keys_upper _ _ _ h0 with h1 | h1
        · exact hrem h1
        · obtain ⟨p, hp, hpk⟩ := List.mem_map.mp h1
          exact hk2 (List.mem_map.mpr ⟨p, hp, by
            rw [← hpk]; exact (hwkrem g e p hp).symm⟩)
      exact ih _ _ _ _ hk hmerge
    · simp only [removeNodeLoop, if_neg hc] at hk ⊢
      exact ih _ _ _ _ hk hrem

/-- A node key that survives the removal cascade never appears among the
removed-subgraph's node keys. -/
theorem removeF_disjoint {α : Type} : ∀ (fuel : Nat),
    (∀ (g : Graph α) (n : GNode α) (kk : NodeId),
      kk ∈ (removeNodeF fuel g n).1.nodes.map Prod.fst →
      kk ∉ (removeNodeF fuel g n).2.nodes.map Prod.fst) ∧
    (∀ (g : Graph α) (e : Edge) (kk : NodeId),
      kk ∈ (removeEdgeF fuel g e).1.nodes.map Prod.fst →
      kk ∉ (removeEdgeF fuel g e).2.nodes.map Prod.fst) := by
  intro fuel
  induction fuel with
  | zero =>
    constructor <;> intro g x kk _ h <;>
      simp [removeNodeF, removeEdgeF, Graph.empty] at h
  | succ fuel ih =>
    constructor
    · intro g n kk hk
      simp only [removeNodeF] at hk ⊢
      have hkk : kk ≠ n.id := by
        have hk1 : kk ∈ (mapDelete g.nodes n.id).map Prod.fst :=
          keys_of_sublist (removeNodeLoop_sublist _
            (fun g' e => (removeF_sublist fuel).2 g' e) _ _ n.id _).1 hk
        obtain ⟨p, hp, hpk⟩ := List.mem_map.mp hk1
        rw [← hpk]
        exact mem_mapDelete_ne hp
      apply removeNodeLoop_disjoint _
        (fun g' e => (removeF_sublist fuel).2 g' e)
        (fun g' e kk' => ih.2 g' e kk')
        (fun g' e => (removedF_wellKeyed fuel).2 g' e) _ _ _ _ _ hk
      simp only [Graph.addNode, Graph.empty, mapSet]
      simp [hkk]
    · intro g e kk hk
      simp only [removeEdgeF] at hk ⊢
      apply removeEdgeLoop_disjoint _
        (fun g' n => (removeF_sublist fuel).1 g' n)
        (fun g' n kk' => ih.1 g' n kk')
        (fun g' n => (removedF_wellKeyed fuel).1 g' n) _ _ _ _ _ hk
      simp [Graph.addEdge, Graph.empty]

theorem removeNodeLoop_acc_keys {α : Type}
    (step : Graph α → Edge → Graph α × Graph α) :
    ∀ (snap : List Edge) (g : Graph α) (nid : NodeId) (removed : Graph α)
      (k' : NodeId), k' ∈ removed.nodes.map Prod.fst →
      k' ∈ (removeNodeLoop step g nid snap removed).2.nodes.map Prod.fst := by
  intro snap
  induction snap with
  | nil => intro g nid removed k' h; exact h
  | cons e rest ih =>
    intro g nid removed k' h
    by_cases hc : e ∈ g.edges ∧ (e.fr = nid ∨ e.toN = nid)
    · simp only [removeNodeLoop, if_pos hc]
      exact ih _ _ _ _ (merge_keys_base _ _ _ h)
    · simp only [removeNodeLoop, if_neg hc]
      exact ih _ _ _ _ h

theorem keys_map_updValue {α : Type} (m : List (NodeId × GNode α))
    (kx : NodeId) (v' : α) :
    (m.map (updValue kx v')).map Prod.fst = m.map Prod.fst := by
  rw [List.map_map]
  apply List.map_congr_left
  intro p _
  unfold updValue
  by_cases hk : p.1 = kx <;> simp [hk]

theorem wellKeyed_updValue {α : Type} {m : List (NodeId × GNode α)}
    (hm : ∀ p ∈ m, p.2.id = p.1) (kx : NodeId) (v' : α) :
    ∀ p ∈ m.map (updValue kx v'), p.2.id = p.1 := by
  intro p hp
  obtain ⟨q, hq, hqe⟩ := List.mem_map.mp hp
  unfold updValue at hqe
  by_cases hk : q.1 = kx
  · rw [if_pos hk] at hqe
    rw [← hqe]
    exact hm q hq
  · rw [if_neg hk] at hqe
    rw [← hqe]
    exact hm q hq

theorem mapGet_middle {α : Type} (pre post : List (NodeId × GNode α))
    (k : NodeId) (v : GNode α) (hpre : ∀ p ∈ pre, p.1 ≠ k) :
    mapGet (pre ++ (k, v) :: post) k = some v := by
  rw [mapGet_append, mapGet_eq_none_of_forall hpre]
  simp [mapGet_cons]

/-- `removeEdge(edge)` on a graph whose unique node entry keyed by the edge's
target is orphaned by the deletion: the loop skips every other entry, removes
the target node once, and returns the edge plus that node's cascade. -/
theorem removeEdge_orphan_walk {α : Type} (g1 : Graph α)
    (rootId Yid : NodeId) (Yold : GNode α)
    (pre post : List (NodeId × GNode α))
    (hsnap : g1.nodes = pre ++ (Yid, Yold) :: post)
    (hpre : ∀ p ∈ pre, p.1 ≠ Yid)
    (hpost : ∀ p ∈ post, p.1 ≠ Yid)
    (hYid : Yold.id = Yid)
    (hnoin : ∀ e ∈ g1.edges.erase ⟨rootId, Yid⟩, e.toN ≠ Yid) :
    g1.removeEdge ⟨rootId, Yid⟩ =
      ((removeNodeF (g1.nodes.length + g1.edges.length)
          ({ g1 with edges := g1.edges.erase ⟨rootId, Yid⟩ }) Yold).1,
       (Graph.empty.addEdge ⟨rootId, Yid⟩).merge
         (removeNodeF (g1.nodes.length + g1.edges.length)
           ({ g1 with edges := g1.edges.erase ⟨rootId, Yid⟩ }) Yold).2) := by
  unfold Graph.removeEdge graphFuel
  simp only [removeEdgeF]
  have hsnap2 : ({ g1 with edges := g1.edges.erase ⟨rootId, Yid⟩ } :
      Graph α).nodes = pre ++ (Yid, Yold) :: post := hsnap
  rw [hsnap2, removeEdgeLoop_skip_prefix _ pre _ _ _ _
    (fun p hp => fun h0 => hpre p hp h0.symm)]
  have hsome : (mapGet ({ g1 with edges := g1.edges.erase ⟨rootId, Yid⟩ } :
      Graph α).nodes Yid).isSome := by
    rw [hsnap2, mapGet_middle pre post Yid Yold hpre]
    rfl
  have horph : ({ g1 with edges := g1.edges.erase ⟨rootId, Yid⟩ } :
      Graph α).isOrphanedNode Yold = true := by
    simp only [Graph.isOrphanedNode, List.any_eq_true, decide_eq_true_eq]
    rintro ⟨e, he, htn⟩
    exact hnoin e he (hYid ▸ htn)
  rw [show ∀ (st : Graph α → GNode α → Graph α × Graph α) (g : Graph α)
      (rm : Graph α),
      removeEdgeLoop st g ⟨rootId, Yid⟩ ((Yid, Yold) :: post) rm =
        if (mapGet g.nodes Yid).isSome ∧ (⟨rootId, Yid⟩ : Edge).toN = Yid ∧
            g.isOrphanedNode Yold then
          removeEdgeLoop st (st g Yold).1 ⟨rootId, Yid⟩ post
            (rm.merge (st g Yold).2)
        else removeEdgeLoop st g ⟨rootId, Yid⟩ post rm
    from fun st g rm => rfl]
  rw [if_pos]
  · rw [removeEdgeLoop_skip_all _ post _ _ _
      (fun p hp h0 => hpost p hp h0.symm)]
  · refine ⟨?_, rfl, ?_⟩
    · show (mapGet (pre ++ (Yid, Yold) :: post) Yid).isSome = true
      rw [mapGet_middle pre post Yid Yold hpre]
      rfl
    · simp only [Graph.isOrphanedNode, List.any_eq_true, decide_eq_true_eq]
      rintro ⟨e, he, htn⟩
      exact hnoin e he (hYid ▸ htn)

/-- C1 amended: in any well-formed graph in which root's direct successors
are exactly `{Xn, Yold}`, the only edge into `Yold` is `(root, Yold)`, and no
edge targets `root` itself, calling `replaceNodesConnectedTo(root, [Xn, Z])`
with `Z` fresh returns: `added` containing exactly node `Z` and edge
`(root, Z)`; `removed` containing node `Yold` and edge `(root, Yold)` (plus
the cascade through `Yold`, whose node keys never include `Xn`); and `Xn`'s
payload updated in place, with `Xn` appearing in neither `added` nor
`removed`. -/
theorem replaceNodesConnectedTo_incremental {α : Type} (g : Graph α)
    (root Xn Z Xold Yold : GNode α)
    (hnd : (g.nodes.map Prod.fst).Nodup)
    (hwk : ∀ p ∈ g.nodes, p.2.id = p.1)
    (hX : mapGet g.nodes Xn.id = some Xold)
    (hY : mapGet g.nodes Yold.id = some Yold)
    (hZ : mapGet g.nodes Z.id = none)
    (hbefore : g.edges.filter (fun e => e.fr = root.id) =
        [⟨root.id, Xn.id⟩, ⟨root.id, Yold.id⟩] ∨
      g.edges.filter (fun e => e.fr = root.id) =
        [⟨root.id, Yold.id⟩, ⟨root.id, Xn.id⟩])
    (hXY : Xn.id ≠ Yold.id)
    (hrootY : root.id ≠ Yold.id)
    (hZroot : Z.id ≠ root.id)
    (hIntoY : g.edges.filter (fun e => e.toN = Yold.id) =
      [⟨root.id, Yold.id⟩])
    (hIntoRoot : ∀ e ∈ g.edges, e.toN ≠ root.id) :
    (g.replaceNodesConnectedTo root [Xn, Z]).2.2 =
      ⟨[(Z.id, Z)], [⟨root.id, Z.id⟩], none⟩ ∧
    Yold.id ∈
      (g.replaceNodesConnectedTo root [Xn, Z]).2.1.nodes.map Prod.fst ∧
    (⟨root.id, Yold.id⟩ : Edge) ∈
      (g.replaceNodesConnectedTo root [Xn, Z]).2.1.edges ∧
    mapGet (g.replaceNodesConnectedTo root [Xn, Z]).1.nodes Xn.id =
      some ⟨Xold.id, Xn.value⟩ ∧
    Xn.id ∉
      (g.replaceNodesConnectedTo root [Xn, Z]).2.1.nodes.map Prod.fst ∧
    Xn.id ∉
      (g.replaceNodesConnectedTo root [Xn, Z]).2.2.nodes.map Prod.fst := by
  have hZX : Z.id ≠ Xn.id := by
    intro h0
    rw [h0, hX] at hZ
    exact Option.noConfusion hZ
  have hZY : Z.id ≠ Yold.id := by
    intro h0
    rw [h0, hY] at hZ
    exact Option.noConfusion hZ
  have hrepl := replace_phase1 g
    (⟨(g.nodes.map (updValue Xn.id Xn.value)) ++ [(Z.id, Z)],
      g.edges ++ [⟨root.id, Z.id⟩], g.rootNodeId⟩ : Graph α)
    root Xn Z Xold Yold.id hX hZ hbefore hXY hZX hZY rfl
  -- facts about the stale edge (root, Yold)
  have heYmem : (⟨root.id, Yold.id⟩ : Edge) ∈ g.edges := by
    have : (⟨root.id, Yold.id⟩ : Edge) ∈
        g.edges.filter (fun e => e.toN = Yold.id) := by
      rw [hIntoY]; exact List.mem_singleton_self _
    exact (List.mem_filter.mp this).1
  have hcount1 : g.edges.count (⟨root.id, Yold.id⟩ : Edge) = 1 := by
    have h1 : (g.edges.filter (fun e => e.toN = Yold.id)).count
        (⟨root.id, Yold.id⟩ : Edge) = g.edges.count _ :=
      List.count_filter (by simp)
    rw [hIntoY] at h1
    simpa using h1.symm
  have hnoinY : ∀ e ∈ g.edges.erase (⟨root.id, Yold.id⟩ : Edge),
      e.toN ≠ Yold.id := by
    intro e he htn
    have he' : e ∈ g.edges := (List.erase_sublist _ _).mem he
    have hef : e ∈ g.edges.filter (fun e => e.toN = Yold.id) :=
      List.mem_filter.mpr ⟨he', by simp [htn]⟩
    rw [hIntoY, List.mem_singleton] at hef
    subst hef
    have h0 : (g.edges.erase (⟨root.id, Yold.id⟩ : Edge)).count
        (⟨root.id, Yold.id⟩ : Edge) =
        g.edges.count (⟨root.id, Yold.id⟩ : Edge) - 1 := by
      rw [List.count_erase_self]
    rw [hcount1] at h0
    have hnm := List.count_pos_iff.mpr he
    omega
  -- the graph entering the cascade
  have herase : ((g.edges ++ [(⟨root.id, Z.id⟩ : Edge)]).erase
      (⟨root.id, Yold.id⟩ : Edge)) =
      g.edges.erase (⟨root.id, Yold.id⟩ : Edge) ++ [(⟨root.id, Z.id⟩ : Edge)] :=
    List.erase_append_left _ heYmem
  have hnoin1 : ∀ e ∈ ((g.edges ++ [(⟨root.id, Z.id⟩ : Edge)]).erase
      (⟨root.id, Yold.id⟩ : Edge)), e.toN ≠ Yold.id := by
    rw [herase]
    intro e he
    rcases List.mem_append.mp he with h1 | h1
    · exact hnoinY e h1
    · rw [List.mem_singleton] at h1
      subst h1
      simpa using hZY
  -- decompose the node map around Yold's entry
  have hYnv : mapGet (g.nodes.map (updValue Xn.id Xn.value)) Yold.id =
      some Yold := by
    rw [mapGet_updValue_ne _ _ _ _ (Ne.symm hXY)]
    exact hY
  obtain ⟨pre, post, hsplit, hpre⟩ := mapGet_decomp _ _ _ hYnv
  have hkeysnv : ((g.nodes.map (updValue Xn.id Xn.value)).map
      Prod.fst).Nodup := by
    rw [keys_map_updValue]
    exact hnd
  have hpost : ∀ p ∈ post, p.1 ≠ Yold.id := by
    intro p hp h0
    rw [hsplit] at hkeysnv
    simp only [List.map_append, List.map_cons] at hkeysnv
    have h1 := (List.Nodup.of_append_right hkeysnv)
    rw [List.nodup_cons] at h1
    exact h1.1 (h0 ▸ List.mem_map.mpr ⟨p, hp, rfl⟩)
  have hpostAll : ∀ p ∈ post ++ [(Z.id, Z)], p.1 ≠ Yold.id := by
    intro p hp
    rcases List.mem_append.mp hp with h1 | h1
    · exact hpost p h1
    · rw [List.mem_singleton] at h1
      rw [h1]
      exact hZY
  have hsnapg1 : ((⟨(g.nodes.map (updValue Xn.id Xn.value)) ++ [(Z.id, Z)],
      g.edges ++ [⟨root.id, Z.id⟩], g.rootNodeId⟩ : Graph α)).nodes =
      pre ++ (Yold.id, Yold) :: (post ++ [(Z.id, Z)]) := by
    show (g.nodes.map (updValue Xn.id Xn.value)) ++ [(Z.id, Z)] = _
    rw [hsplit]
    simp
  have hwalk := removeEdge_orphan_walk
    (⟨(g.nodes.map (updValue Xn.id Xn.value)) ++ [(Z.id, Z)],
      g.edges ++ [⟨root.id, Z.id⟩], g.rootNodeId⟩ : Graph α)
    root.id Yold.id Yold pre (post ++ [(Z.id, Z)]) hsnapg1 hpre hpostAll rfl
    hnoin1
  -- name the cascade's input graph and fuel
  obtain ⟨G2, hG2⟩ : ∃ G2 : Graph α,
      ({ (⟨(g.nodes.map (updValue Xn.id Xn.value)) ++ [(Z.id, Z)],
          g.edges ++ [⟨root.id, Z.id⟩], g.rootNodeId⟩ : Graph α) with
        edges := ((⟨(g.nodes.map (updValue Xn.id Xn.value)) ++ [(Z.id, Z)],
          g.edges ++ [⟨root.id, Z.id⟩], g.rootNodeId⟩ : Graph α)).edges.erase
          ⟨root.id, Yold.id⟩ } : Graph α) = G2 := ⟨_, rfl⟩
  obtain ⟨FUEL, hFUEL⟩ : ∃ FUEL,
      ((⟨(g.nodes.map (updValue Xn.id Xn.value)) ++ [(Z.id, Z)],
        g.edges ++ [⟨root.id, Z.id⟩], g.rootNodeId⟩ : Graph α)).nodes.length +
      ((⟨(g.nodes.map (updValue Xn.id Xn.value)) ++ [(Z.id, Z)],
        g.edges ++ [⟨root.id, Z.id⟩], g.rootNodeId⟩ : Graph α)).edges.length =
      FUEL := ⟨_, rfl⟩
  rw [hG2, hFUEL] at hwalk
  have hG2nodes : G2.nodes =
      (g.nodes.map (updValue Xn.id Xn.value)) ++ [(Z.id, Z)] := by
    rw [← hG2]
  have hG2edges : G2.edges =
      g.edges.erase (⟨root.id, Yold.id⟩ : Edge) ++ [(⟨root.id, Z.id⟩ : Edge)] := by
    rw [← hG2]
    exact herase
  have hG2wk : ∀ p ∈ G2.nodes, p.2.id = p.1 := by
    rw [hG2nodes]
    intro p hp
    rcases List.mem_append.mp hp with h1 | h1
    · exact wellKeyed_updValue hwk _ _ p h1
    · rw [List.mem_singleton] at h1
      rw [h1]
  have hG2keys : G2.nodes.map Prod.fst = (g.nodes.map Prod.fst) ++ [Z.id] := by
    rw [hG2nodes, List.map_append, keys_map_updValue]
    rfl
  have hZnotkeys : Z.id ∉ g.nodes.map Prod.fst := by
    intro h
    rw [keys_iff_isSome, hZ] at h
    simp at h
  have hG2nd : (G2.nodes.map Prod.fst).Nodup := by
    rw [hG2keys, List.nodup_append]
    exact ⟨hnd, List.nodup_singleton _, by
      intro a ha hb
      rw [List.mem_singleton] at hb
      exact hZnotkeys (hb ▸ ha)⟩
  have hmemX : (⟨root.id, Xn.id⟩ : Edge) ∈ g.edges := by
    rcases hbefore with hb | hb
    · exact (List.filter_sublist g.edges).mem (hb ▸ List.mem_cons_self _ _)
    · exact (List.filter_sublist g.edges).mem
        (hb ▸ List.mem_cons_of_mem _ (List.mem_cons_self _ _))
  have hprotG2 : ProtectedG root.id Xn.id G2 := by
    refine ⟨?_, ?_, ?_, hG2wk⟩
    · rw [hG2edges]
      apply List.mem_append_left
      rw [List.mem_erase_of_ne (by simp [hXY])]
      exact hmemX
    · rw [hG2keys]
      apply List.mem_append_left
      rw [keys_iff_isSome, hX]
      rfl
    · rw [hG2edges]
      intro e he
      rcases List.mem_append.mp he with h1 | h1
      · exact hIntoRoot e ((List.erase_sublist _ _).mem h1)
      · rw [List.mem_singleton] at h1
        rw [h1]
        simpa using hZroot
  have hQprot : ProtectedG root.id Xn.id (removeNodeF FUEL G2 Yold).1 :=
    (removeF_protected root.id Xn.id FUEL).1 G2 Yold hprotG2
      (Ne.symm hrootY) (Ne.symm hXY)
  have hQsub : List.Sublist (removeNodeF FUEL G2 Yold).1.nodes G2.nodes :=
    ((removeF_sublist FUEL).1 G2 Yold).1
  have hQget : mapGet (removeNodeF FUEL G2 Yold).1.nodes Xn.id =
      some ⟨Xold.id, Xn.value⟩ := by
    rw [mapGet_sublist_unique hQsub hG2nd hQprot.2.1, hG2nodes, mapGet_append,
      mapGet_updValue_self, hX]
    rfl
  obtain ⟨M, hM⟩ : ∃ M, FUEL = M + 1 := by
    refine ⟨FUEL - 1, ?_⟩
    have : 1 ≤ FUEL := by
      rw [← hFUEL]
      simp
      omega
    omega
  have hYQ2 : Yold.id ∈ (removeNodeF FUEL G2 Yold).2.nodes.map Prod.fst := by
    rw [hM]
    simp only [removeNodeF]
    apply removeNodeLoop_acc_keys
    simp [Graph.addNode, Graph.empty, mapSet]
  have hQ2wk : ∀ p ∈ (removeNodeF FUEL G2 Yold).2.nodes, p.2.id = p.1 :=
    (removedF_wellKeyed FUEL).1 G2 Yold
  have hQdisj : Xn.id ∉ (removeNodeF FUEL G2 Yold).2.nodes.map Prod.fst :=
    (removeF_disjoint FUEL).1 G2 Yold Xn.id hQprot.2.1
  rw [hrepl, hwalk]
  refine ⟨rfl, ?_, ?_, hQget, ?_, ?_⟩
  · apply merge_keys_other
    · apply merge_wellKeyed
      intro p hp
      simp [Graph.empty, Graph.addEdge] at hp
    · apply merge_keys_other _ _ hQ2wk
      exact hYQ2
  · rw [merge_edges, merge_edges]
    simp [Graph.empty, Graph.addEdge]
  · intro h0
    rcases merge_keys_upper _ _ _ h0 with h1 | h1
    · simp [Graph.empty] at h1
    · obtain ⟨p, hp, hpk⟩ := List.mem_map.mp h1
      have hwkR : ∀ q ∈ ((Graph.empty.addEdge
          (⟨root.id, Yold.id⟩ : Edge)).merge
          (removeNodeF FUEL G2 Yold).2).nodes, q.2.id = q.1 := by
        apply merge_wellKeyed
        intro q hq
        simp [Graph.empty, Graph.addEdge] at hq
      have hk1 : Xn.id ∈ ((Graph.empty.addEdge
          (⟨root.id, Yold.id⟩ : Edge)).merge
          (removeNodeF FUEL G2 Yold).2).nodes.map Prod.fst :=
        List.mem_map.mpr ⟨p, hp, by rw [← hpk]; exact (hwkR p hp).symm⟩
      rcases merge_keys_upper _ _ _ hk1 with h2 | h2
      · simp [Graph.empty, Graph.addEdge] at h2
      · obtain ⟨q, hq, hqk⟩ := List.mem_map.mp h2
        exact hQdisj (List.mem_map.mpr ⟨q, hq, by
          rw [← hqk]; exact (hQ2wk q hq).symm⟩)
  · intro h0
    simp at h0
    exact hZX h0.symm

/-- Witness for C1 on the concrete scenario `root -> {X, Y}`, `Y -> W`:
`added` is exactly `{Z, (root, Z)}`, `removed` contains `Y` and `(root, Y)`,
`X`'s payload is updated in place to the new value `7`, and `X` is in
neither delta. -/
theorem replaceNodesConnectedTo_incremental_witness :
    (exReplaceOk.replaceNodesConnectedTo exRoot [exX', exZ]).2.2 =
      ⟨[(exZ.id, exZ)], [⟨exRoot.id, exZ.id⟩], none⟩ ∧
    exY.id ∈ (exReplaceOk.replaceNodesConnectedTo exRoot
      [exX', exZ]).2.1.nodes.map Prod.fst ∧
    (⟨exRoot.id, exY.id⟩ : Edge) ∈
      (exReplaceOk.replaceNodesConnectedTo exRoot [exX', exZ]).2.1.edges ∧
    mapGet (exReplaceOk.replaceNodesConnectedTo exRoot
      [exX', exZ]).1.nodes exX'.id = some ⟨exX.id, exX'.value⟩ ∧
    exX'.id ∉ (exReplaceOk.replaceNodesConnectedTo exRoot
      [exX', exZ]).2.1.nodes.map Prod.fst ∧
    exX'.id ∉ (exReplaceOk.replaceNodesConnectedTo exRoot
      [exX', exZ]).2.2.nodes.map Prod.fst :=
  replaceNodesConnectedTo_incremental exReplaceOk exRoot exX' exZ exX exY
    (by decide) (by decide) (by decide) (by decide) (by decide)
    (by decide) (by decide) (by decide) (by decide) (by decide) (by decide)
